import Mathlib

/-!
Verification model of the `rust-virtuoso` offset list
(`src/offset_list.rs` and `src/offset_list/tree_utils.rs`).

The Rust code keeps three `BTreeMap<u32, u32>` maps.  We model a
`BTreeMap<u32, u32>` as an association list sorted by strictly increasing
key (`BTreeMap` below); every map operation used by the source is translated
to a function on such lists.  Arithmetic is modeled over `Nat`:

* every subtraction performed by the source is guarded by its control
  flow (the model mirrors those guards; the one unguarded subtraction,
  `start - 1` in the placeholder branch of `insert`, aborts the process
  in Rust when `start = 0` and is modeled as a failure);
* division by zero aborts in Rust and is modeled as a failure;
* additions and multiplications are modeled exactly (no wrap-around),
  which matches the source on every execution whose offsets stay within
  `u32`, as in all of the source's own tests.

Every `panic!`/`expect` in the source is modeled by returning `none`
(`Option`): a `none` result means the Rust operation aborts and leaves
no observable state.
-/

/-- An ordered map `BTreeMap<u32, u32>`: an association list of
(key, value) pairs, sorted by strictly increasing key. -/
abbrev BTreeMap := List (Nat × Nat)

namespace BTreeMap

/-- Keys are strictly increasing: the representation invariant that
`BTreeMap` maintains by construction. -/
def Sorted (t : BTreeMap) : Prop := List.Pairwise (fun a b => a.1 < b.1) t

instance (t : BTreeMap) : Decidable (Sorted t) := by
  unfold Sorted; infer_instance

/-- `BTreeMap::get`. -/
def get : BTreeMap → Nat → Option Nat
  | [], _ => none
  | (k, v) :: t, q => if q = k then some v else get t q

/-- `BTreeMap::insert` (insert or replace, keeping the list sorted). -/
def insert : BTreeMap → Nat → Nat → BTreeMap
  | [], k, v => [(k, v)]
  | (k', v') :: t, k, v =>
    if k < k' then (k, v) :: (k', v') :: t
    else if k = k' then (k, v) :: t
    else (k', v') :: insert t k v

/-- `BTreeMap::remove` (dropping the returned value). -/
def remove : BTreeMap → Nat → BTreeMap
  | [], _ => []
  | (k', v') :: t, k => if k = k' then t else (k', v') :: remove t k

/-- The keys of the map, in order. -/
def keys (t : BTreeMap) : List Nat := t.map Prod.fst

/-- `tree.range(a..)`: the entries with key at least `a`, in order. -/
def rangeFrom (t : BTreeMap) (a : Nat) : BTreeMap := t.filter (fun p => a ≤ p.1)

/-- `tree.range(..=b)`: the entries with key at most `b`, in order. -/
def rangeTo (t : BTreeMap) (b : Nat) : BTreeMap := t.filter (fun p => p.1 ≤ b)

/-- `tree.range(a..=b)`: the entries with key in `[a, b]`, in order. -/
def rangeII (t : BTreeMap) (a b : Nat) : BTreeMap :=
  t.filter (fun p => a ≤ p.1 ∧ p.1 ≤ b)

end BTreeMap

/-- `tree_utils::lte`: the greatest entry with key at most `start`
(a floor lookup).  The source's `.expect("BTreeMap should contain zero")`
is modeled by the `none` result. -/
def lte (t : BTreeMap) (start : Nat) : Option (Nat × Nat) :=
  (t.rangeTo start).getLast?

/-- `tree_utils::LAST_RANGE_END = u32::MAX`. -/
def LAST_RANGE_END : Nat := 4294967295

/-- `tree_utils::Range`: a run `[start, stop]` of indices sharing `size`
(the source calls the upper bound `end`, a Lean keyword). -/
structure RangeR where
  start : Nat
  stop : Nat
  size : Nat
deriving Repr, DecidableEq

/-- The loop of `tree_utils::ranges_within`: turns the entry list into
runs, each run ending one short of the next key, the last one ending at
`LAST_RANGE_END`. -/
def rangesGo : Nat → Nat → List (Nat × Nat) → List RangeR
  | s, z, [] => [⟨s, LAST_RANGE_END, z⟩]
  | s, z, (ns, nz) :: rest => ⟨s, ns - 1, z⟩ :: rangesGo ns nz rest

/-- `tree_utils::ranges_within`.  Failure cases, in source order:
the floor lookup finds no key at or below `start`; `BTreeMap::range`
aborts because the lower bound `closest_lte` exceeds the upper bound
`stop`; the `.expect("We should have at least one match!")` fires on an
empty iterator. -/
def rangesWithin (t : BTreeMap) (start stop : Nat) : Option (List RangeR) :=
  match lte t start with
  | none => none
  | some (closest, _) =>
    if stop < closest then none
    else
      match t.rangeII closest stop with
      | [] => none
      | (s, z) :: rest => some (rangesGo s z rest)

/-- `Item`: a resolved (index, size, offset) triple. -/
structure Item where
  index : Nat
  size : Nat
  offset : Nat
deriving Repr, DecidableEq

/-- The state of `OffsetList`: the three synchronized ordered maps. -/
structure OffsetList where
  size_tree : BTreeMap
  offset_tree : BTreeMap
  pixel_tree : BTreeMap
deriving Repr, DecidableEq

namespace OffsetList

/-- `OffsetList::new`. -/
def new : OffsetList := ⟨[], [], []⟩

/-- The loop of `update_offset_tree`: walk the entries with key at or
after the anchor, assigning `offset = (index - prev_index) * prev_size +
prev_offset` and recording the inverse entry in the pixel tree. -/
def updLoop : List (Nat × Nat) → Nat → Nat → Nat → BTreeMap → BTreeMap → BTreeMap × BTreeMap
  | [], _, _, _, o, p => (o, p)
  | (index, size) :: rest, prevIndex, prevSize, prevOffset, o, p =>
    let offset := (index - prevIndex) * prevSize + prevOffset
    updLoop rest index size offset (o.insert index offset) (p.insert offset index)

/-- `OffsetList::update_offset_tree`.  `lteKey` is `match start { 0 => 0,
other => other - 1 }`, which is exactly truncated subtraction.  The
floor lookup failing models the `expect` inside `tree_utils::lte`. -/
def update_offset_tree (l : OffsetList) (start : Nat) : Option OffsetList :=
  let lteKey := start - 1
  let updated := l.size_tree.rangeFrom lteKey
  match lte l.size_tree lteKey with
  | none => none
  | some (start_index, _start_size) =>
    let prev_offset := (l.offset_tree.get start_index).getD 0
    let op := updLoop updated start_index _start_size prev_offset l.offset_tree l.pixel_tree
    some { l with offset_tree := op.1, pixel_tree := op.2 }

/-- `OffsetList::remove_index`.  The `.expect("offset tree should be in
sync!")` is modeled by `none` when the offset tree lacks the key. -/
def remove_index (l : OffsetList) (index : Nat) : Option OffsetList :=
  match l.offset_tree.get index with
  | none => none
  | some pixel =>
    some ⟨l.size_tree.remove index, l.offset_tree.remove index, l.pixel_tree.remove pixel⟩

/-- `OffsetList::insert_spots`.  A non-empty size tree is the source's
explicit precondition `panic!`.  `spot + 1` is a `u32` addition that
overflows when `spot = u32::MAX` (abort under the debug overflow check;
a wrap onto key 0 in release): the call aborts, modeled by the guard
that every spot lies below `u32::MAX`.  The trailing
`update_offset_tree(0)` can itself abort (floor lookup with no key at
or below 0). -/
def insert_spots (l : OffsetList) (spots : List Nat) (size : Nat) : Option OffsetList :=
  if l.size_tree = [] then
    if spots.all (fun spot => decide (spot < LAST_RANGE_END)) then
      let st := spots.foldl (fun t spot => (BTreeMap.insert t spot size).insert (spot + 1) 0) l.size_tree
      update_offset_tree { l with size_tree := st } 0
    else none
  else none

/-- The loop of `OffsetList::insert` over the overlapping ranges,
threading `first_pass_done` and `should_insert` and mutating the state:
subsequent range starts are removed when covered or equal-sized, and a
range extending past `end` re-inserts its size at `end + 1`. -/
def insLoop (e size : Nat) : List RangeR → Bool → Bool → OffsetList → Option (Bool × OffsetList)
  | [], _, shouldIns, l => some (shouldIns, l)
  | r :: rest, firstDone, shouldIns, l =>
    let step1 : Option (Bool × OffsetList) :=
      if firstDone = false then some (decide (r.size ≠ size), l)
      else if e ≥ r.start ∨ size = r.size then
        match remove_index l r.start with
        | none => none
        | some l' => some (shouldIns, l')
      else some (shouldIns, l)
    match step1 with
    | none => none
    | some (si, l1) =>
      let l2 := if r.stop > e ∧ e ≥ r.start ∧ r.size ≠ size
                then { l1 with size_tree := l1.size_tree.insert (e + 1) r.size } else l1
      insLoop e size rest true si l2

/-- `OffsetList::insert`.  The placeholder branch reads
`size_tree.get(&(start - 1))`: when `start = 0` the `u32` subtraction
aborts the process (overflow check in debug, wrapped lookup feeding the
`expect` in release), modeled as `none`; a missing key at `start - 1`
fails the `expect("We must have a group size ...")`. -/
def insert (l : OffsetList) (start e size : Nat) : Option OffsetList :=
  if l.size_tree = [] then
    update_offset_tree { l with size_tree := l.size_tree.insert 0 size } start
  else
    match l.size_tree.get start with
    | some 0 =>
      if start = 0 then none
      else
        match l.size_tree.get (start - 1) with
        | none => none
        | some group_size =>
          if group_size = size then
            some { size_tree := [(0, size)], offset_tree := [(0, 0)],
                   pixel_tree := l.pixel_tree }
          else
            let st := l.size_tree.map (fun p => if p.2 = 0 then (p.1, size) else p)
            update_offset_tree { l with size_tree := st } start
    | _ =>
      match rangesWithin l.size_tree (start - 1) (e + 1) with
      | none => none
      | some ranges =>
        match insLoop e size ranges false false l with
        | none => none
        | some (shouldIns, l1) =>
          let l2 := if shouldIns
                    then { l1 with size_tree := l1.size_tree.insert start size } else l1
          update_offset_tree l2 start

/-- The innermost loop of `OffsetList::range`: `for index in start..=end`,
stopping once the running offset exceeds `end_offset`. -/
def walkItems (size eo endI : Nat) (i off : Nat) : List Item :=
  if _h : i > endI then []
  else if off > eo then []
  else ⟨i, size, off⟩ :: walkItems size eo endI (i + 1) (off + size)
termination_by endI + 1 - i
decreasing_by omega

/-- The loop of `OffsetList::range` over the offset-tree runs.  Note
that here `r.size` holds the run's *offset* (the loop iterates the
offset tree, so the `Range.size` field carries the offset value) and the
per-item size is looked up in the size tree (its `expect("tree should be
in sync")` is the first failure case).  When that size is 0 and the run
offset lies below `start_offset`, the source divides by zero and aborts:
the second failure case. -/
def rangeLoop (so eo minI maxI : Nat) (sizeT : BTreeMap) :
    List RangeR → List Item → Option (List Item)
  | [], acc => some acc
  | r :: rest, acc =>
    match sizeT.get r.start with
    | none => none
    | some size =>
      if r.size < so ∧ size = 0 then none
      else
        let startI1 := if r.size < so then r.start + (so - r.size) / size else r.start
        let offset1 := if r.size < so then r.size + (startI1 - r.start) * size else r.size
        let startI2 := if startI1 < minI then minI else startI1
        let offset2 := if startI1 < minI then offset1 + (minI - startI1) * size else offset1
        if size = 0 then some (acc ++ [⟨startI2, 0, offset2⟩])
        else
          let endI := min r.stop maxI
          rangeLoop so eo minI maxI sizeT rest (acc ++ walkItems size eo endI startI2 offset2)

/-- `OffsetList::range`.  The two leading lookups can each fail: the
floor lookup on the pixel tree, and the `.next().expect("we should find
such end index")` on `pixel_tree.range(end_offset..)`. -/
def range (l : OffsetList) (so eo minI maxI : Nat) : Option (List Item) :=
  match lte l.pixel_tree so with
  | none => none
  | some (_, start_index) =>
    match l.pixel_tree.rangeFrom eo with
    | [] => none
    | (_, end_index) :: _ =>
      match rangesWithin l.offset_tree start_index end_index with
      | none => none
      | some ranges => rangeLoop so eo minI maxI l.size_tree ranges []

/-- `OffsetList::range_size_and_offset` (shared by the point queries). -/
def range_size_and_offset (l : OffsetList) (index : Nat) : Option (Nat × Nat × Nat) :=
  match lte l.size_tree index with
  | none => none
  | some (range_index, _) =>
    match l.size_tree.get range_index, l.offset_tree.get range_index with
    | some size, some offset => some (size, offset, range_index)
    | _, _ => none

/-- `OffsetList::offset_of`. -/
def offset_of (l : OffsetList) (index : Nat) : Option Nat :=
  (l.range_size_and_offset index).map fun (size, offset, range_index) =>
    (index - range_index) * size + offset

/-- `OffsetList::total`. -/
def total (l : OffsetList) (index : Nat) : Option Nat :=
  (l.range_size_and_offset index).map fun (size, offset, range_index) =>
    (index - range_index + 1) * size + offset

/-- `OffsetList::item_at`. -/
def item_at (l : OffsetList) (index : Nat) : Option Item :=
  (l.range_size_and_offset index).map fun (size, offset, range_index) =>
    ⟨index, size, (index - range_index) * size + offset⟩

/-- `OffsetList::index_range`. -/
def index_range (l : OffsetList) (start_index end_index : Nat) : Option (List Item) :=
  if l.size_tree = [] then some [⟨0, 0, 0⟩]
  else
    match rangesWithin l.size_tree start_index end_index with
    | none => none
    | some ranges =>
      some (ranges.foldl (fun acc r =>
        acc ++ (List.range' (max start_index r.start)
          (min r.stop end_index + 1 - max start_index r.start)).map
            (fun i => ⟨i, r.size, 0⟩)) [])

end OffsetList

/-! ## Basic facts about the ordered-map model -/

namespace BTreeMap

theorem get_eq_none_of_not_mem {t : BTreeMap} {k : Nat} (h : ∀ v, (k, v) ∉ t) :
    t.get k = none := by
  induction t with
  | nil => rfl
  | cons p rest ih =>
    obtain ⟨k', v'⟩ := p
    by_cases hk : k = k'
    · exact absurd (show (k, v') ∈ (k', v') :: rest by simp [hk]) (h v')
    · simpa [get, hk] using ih (fun v hv => h v (List.mem_cons_of_mem _ hv))

theorem get_mem {t : BTreeMap} {k v : Nat} (h : t.get k = some v) : (k, v) ∈ t := by
  induction t with
  | nil => simp [get] at h
  | cons p rest ih =>
    obtain ⟨k', v'⟩ := p
    by_cases hk : k = k'
    · simp only [get, if_pos hk] at h
      subst hk; cases h; exact List.mem_cons_self _ _
    · simp only [get, if_neg hk] at h
      exact List.mem_cons_of_mem _ (ih h)

theorem get_isSome_of_mem {t : BTreeMap} {k v : Nat} (h : (k, v) ∈ t) :
    (t.get k).isSome := by
  induction t with
  | nil => simp at h
  | cons p rest ih =>
    obtain ⟨k', v'⟩ := p
    by_cases hk : k = k'
    · simp [get, hk]
    · rcases List.mem_cons.1 h with h1 | h1
      · exact absurd (congrArg Prod.fst h1) hk
      · simpa [get, hk] using ih h1

theorem get_of_mem {t : BTreeMap} (hs : t.Sorted) {k v : Nat} (h : (k, v) ∈ t) :
    t.get k = some v := by
  induction t with
  | nil => simp at h
  | cons p rest ih =>
    obtain ⟨k', v'⟩ := p
    rcases List.mem_cons.1 h with h1 | h1
    · cases h1; simp [get]
    · have hlt := (List.pairwise_cons.1 hs).1 _ h1
      have hk : k ≠ k' := by simp at hlt; omega
      simpa [get, hk] using ih (List.pairwise_cons.1 hs).2 h1

theorem mem_insert_elim {t : BTreeMap} {k v : Nat} {p : Nat × Nat}
    (h : p ∈ t.insert k v) : p = (k, v) ∨ p ∈ t := by
  induction t with
  | nil => simpa [insert] using h
  | cons q rest ih =>
    obtain ⟨k', v'⟩ := q
    by_cases h1 : k < k'
    · simpa [insert, h1] using h
    · by_cases h2 : k = k'
      · subst h2
        simp only [insert, if_neg h1, if_pos rfl] at h
        rcases List.mem_cons.1 h with h3 | h3
        · exact Or.inl h3
        · exact Or.inr (List.mem_cons_of_mem _ h3)
      · simp only [insert, if_neg h1, if_neg h2] at h
        rcases List.mem_cons.1 h with h3 | h3
        · exact Or.inr (h3 ▸ List.mem_cons_self _ _)
        · rcases ih h3 with h4 | h4
          · exact Or.inl h4
          · exact Or.inr (List.mem_cons_of_mem _ h4)

theorem Sorted.insert {t : BTreeMap} (hs : t.Sorted) (k v : Nat) :
    (t.insert k v).Sorted := by
  induction t with
  | nil => simp [BTreeMap.insert, Sorted]
  | cons p rest ih =>
    obtain ⟨k', v'⟩ := p
    have hrest : Sorted rest := (List.pairwise_cons.1 hs).2
    have hhead := (List.pairwise_cons.1 hs).1
    by_cases h1 : k < k'
    · simp only [BTreeMap.insert, if_pos h1]
      refine List.pairwise_cons.2 ⟨?_, hs⟩
      intro q hq
      rcases List.mem_cons.1 hq with rfl | hq'
      · exact h1
      · exact lt_trans h1 (hhead _ hq')
    · by_cases h2 : k = k'
      · subst h2
        simp only [BTreeMap.insert, if_neg h1, if_pos rfl]
        exact List.pairwise_cons.2 ⟨hhead, hrest⟩
      · simp only [BTreeMap.insert, if_neg h1, if_neg h2]
        refine List.pairwise_cons.2 ⟨?_, ih hrest⟩
        intro q hq
        rcases mem_insert_elim hq with h3 | h3
        · subst h3; omega
        · exact hhead _ h3

theorem get_insert_self (t : BTreeMap) (k v : Nat) : (t.insert k v).get k = some v := by
  induction t with
  | nil => simp [insert, get]
  | cons p rest ih =>
    obtain ⟨k', v'⟩ := p
    by_cases h1 : k < k'
    · simp [insert, h1, get]
    · by_cases h2 : k = k'
      · subst h2; simp [insert, h1, get]
      · simp [insert, h1, h2, get, ih]

theorem get_insert_ne (t : BTreeMap) (k v q : Nat) (hq : q ≠ k) :
    (t.insert k v).get q = t.get q := by
  induction t with
  | nil => simp [insert, get, hq]
  | cons p rest ih =>
    obtain ⟨k', v'⟩ := p
    by_cases h1 : k < k'
    · simp [insert, h1, get, hq]
    · by_cases h2 : k = k'
      · subst h2; simp [insert, h1, get, hq]
      · by_cases h3 : q = k'
        · simp [insert, h1, h2, get, h3]
        · simp [insert, h1, h2, get, h3, ih]

theorem mem_remove_elim {t : BTreeMap} {k : Nat} {p : Nat × Nat}
    (h : p ∈ t.remove k) : p ∈ t := by
  induction t with
  | nil => simpa [remove] using h
  | cons q rest ih =>
    obtain ⟨k', v'⟩ := q
    by_cases h1 : k = k'
    · simp only [remove, if_pos h1] at h
      exact List.mem_cons_of_mem _ h
    · simp only [remove, if_neg h1] at h
      rcases List.mem_cons.1 h with h2 | h2
      · exact h2 ▸ List.mem_cons_self _ _
      · exact List.mem_cons_of_mem _ (ih h2)

theorem remove_sublist (t : BTreeMap) (k : Nat) : List.Sublist (t.remove k) t := by
  induction t with
  | nil => simp [remove]
  | cons q rest ih =>
    obtain ⟨k', v'⟩ := q
    by_cases h1 : k = k'
    · simpa [remove, h1] using List.sublist_cons_self (k', v') rest
    · simpa [remove, h1] using ih.cons₂ (k', v')

theorem Sorted.remove {t : BTreeMap} (hs : Sorted t) (k : Nat) :
    Sorted (t.remove k) := List.Pairwise.sublist (remove_sublist t k) hs

theorem get_remove_self {t : BTreeMap} (hs : t.Sorted) (k : Nat) :
    (t.remove k).get k = none := by
  induction t with
  | nil => rfl
  | cons q rest ih =>
    obtain ⟨k', v'⟩ := q
    have hrest : Sorted rest := (List.pairwise_cons.1 hs).2
    by_cases h1 : k = k'
    · subst h1
      simp only [remove, if_pos rfl]
      exact get_eq_none_of_not_mem fun v hv => by
        have := (List.pairwise_cons.1 hs).1 _ hv; simp at this
    · simp [remove, h1, get, ih hrest]

theorem get_remove_ne (t : BTreeMap) (k q : Nat) (hq : q ≠ k) :
    (t.remove k).get q = t.get q := by
  induction t with
  | nil => rfl
  | cons p rest ih =>
    obtain ⟨k', v'⟩ := p
    by_cases h1 : k = k'
    · subst h1; simp [remove, get, hq]
    · by_cases h2 : q = k'
      · simp [remove, h1, get, h2]
      · simp [remove, h1, get, h2, ih]

theorem Sorted.filter {t : BTreeMap} (hs : Sorted t) (f : Nat × Nat → Bool) :
    Sorted (t.filter f) := List.Pairwise.sublist (List.filter_sublist t) hs

end BTreeMap

theorem BTreeMap.mem_keys_iff_get {t : BTreeMap} {k : Nat} :
    k ∈ t.keys ↔ (t.get k).isSome := by
  constructor
  · intro h
    obtain ⟨⟨k', v⟩, hm, hk⟩ := List.mem_map.1 h
    simp only at hk
    subst hk
    exact BTreeMap.get_isSome_of_mem hm
  · intro h
    obtain ⟨v, hv⟩ := Option.isSome_iff_exists.1 h
    exact List.mem_map.2 ⟨(k, v), BTreeMap.get_mem hv, rfl⟩

/-- The last entry of a sorted map has the greatest key. -/
theorem BTreeMap.sorted_getLast_ge {t : BTreeMap} (hs : BTreeMap.Sorted t)
    {x : Nat × Nat} (hx : t.getLast? = some x) : ∀ p ∈ t, p.1 ≤ x.1 := by
  induction t with
  | nil => simp
  | cons a rest ih =>
    intro p hp
    cases rest with
    | nil =>
      simp at hx
      rcases List.mem_cons.1 hp with rfl | hp'
      · simp [hx]
      · simp at hp'
    | cons b rest' =>
      have hx' : (b :: rest').getLast? = some x := by
        simpa [List.getLast?_cons_cons] using hx
      have ih' := ih (List.pairwise_cons.1 hs).2 hx'
      rcases List.mem_cons.1 hp with rfl | hp'
      · have hb := ih' b (List.mem_cons_self _ _)
        have := (List.pairwise_cons.1 hs).1 b (List.mem_cons_self _ _)
        omega
      · exact ih' p hp'

theorem lte_mem {t : BTreeMap} {q c vc : Nat} (h : lte t q = some (c, vc)) :
    (c, vc) ∈ t ∧ c ≤ q := by
  have hm : (c, vc) ∈ t.rangeTo q := List.mem_of_mem_getLast? h
  have h2 := List.of_mem_filter hm
  exact ⟨List.mem_of_mem_filter hm, by simpa using h2⟩

theorem lte_none_iff {t : BTreeMap} {q : Nat} :
    lte t q = none ↔ ∀ p ∈ t, q < p.1 := by
  unfold lte BTreeMap.rangeTo
  rw [List.getLast?_eq_none_iff, List.filter_eq_nil_iff]
  constructor
  · intro h p hp
    have := h p hp
    simp at this
    omega
  · intro h p hp
    have := h p hp
    simp
    omega

theorem lte_isSome_of_mem {t : BTreeMap} {k v q : Nat} (hm : (k, v) ∈ t) (hk : k ≤ q) :
    lte t q ≠ none := by
  intro h
  exact absurd hk (by simpa using lte_none_iff.1 h (k, v) hm)

theorem lte_greatest {t : BTreeMap} (hs : BTreeMap.Sorted t) {q c vc : Nat}
    (h : lte t q = some (c, vc)) : ∀ p ∈ t, p.1 ≤ q → p.1 ≤ c := by
  intro p hp hpq
  have hmem : p ∈ t.rangeTo q := by
    simp [BTreeMap.rangeTo, List.mem_filter, hp, hpq]
  exact BTreeMap.sorted_getLast_ge (BTreeMap.Sorted.filter hs _) h p hmem

theorem lte_get {t : BTreeMap} (hs : BTreeMap.Sorted t) {q c vc : Nat}
    (h : lte t q = some (c, vc)) : t.get c = some vc :=
  BTreeMap.get_of_mem hs (lte_mem h).1

theorem lte_self {t : BTreeMap} (hs : BTreeMap.Sorted t) {q v : Nat}
    (h : t.get q = some v) : lte t q = some (q, v) := by
  have hm := BTreeMap.get_mem h
  cases hl : lte t q with
  | none => exact absurd hl (lte_isSome_of_mem hm (le_refl q))
  | some p =>
    obtain ⟨c, vc⟩ := p
    have h1 := lte_mem hl
    have h2 := lte_greatest hs hl (q, v) hm (le_refl q)
    have hcq : c = q := le_antisymm h1.2 h2
    subst hcq
    have := BTreeMap.get_of_mem hs h1.1
    rw [this] at h
    cases h
    rfl

/-- Two keys that are adjacent in the map: both present, in order, with
no key strictly between them. -/
def AdjKeys (t : BTreeMap) (k1 k2 : Nat) : Prop :=
  k1 < k2 ∧ (t.get k1).isSome ∧ (t.get k2).isSome ∧
    ∀ k, (t.get k).isSome → k ≤ k1 ∨ k2 ≤ k

theorem BTreeMap.get_cons_ne {ka va : Nat} {rest : BTreeMap} {k : Nat} (hk : k ≠ ka) :
    BTreeMap.get ((ka, va) :: rest) k = BTreeMap.get rest k := by
  simp [BTreeMap.get, hk]

theorem BTreeMap.get_cons_self {ka va : Nat} {rest : BTreeMap} :
    BTreeMap.get ((ka, va) :: rest) ka = some va := by
  simp [BTreeMap.get]

/-- In a sorted map, consecutive entries of the list are exactly the
adjacent key pairs; this direction extracts a list-level `Chain'` fact
at an adjacent pair. -/
theorem adjKeys_rel {R : Nat × Nat → Nat × Nat → Prop} {t : BTreeMap}
    (hs : BTreeMap.Sorted t) (hc : List.Chain' R t) {k1 k2 v1 v2 : Nat}
    (h : AdjKeys t k1 k2) (h1 : t.get k1 = some v1) (h2 : t.get k2 = some v2) :
    R (k1, v1) (k2, v2) := by
  obtain ⟨hlt, hi1, hi2, hbet⟩ := h
  clear hi1 hi2
  induction t with
  | nil => simp [BTreeMap.get] at h1
  | cons a rest ih =>
    obtain ⟨ka, va⟩ := a
    have hsrest : BTreeMap.Sorted rest := (List.pairwise_cons.1 hs).2
    by_cases hk1 : k1 = ka
    · subst hk1
      rw [BTreeMap.get_cons_self] at h1
      cases h1
      have hk2ne : k2 ≠ k1 := by omega
      rw [BTreeMap.get_cons_ne hk2ne] at h2
      have hm2 : (k2, v2) ∈ rest := BTreeMap.get_mem h2
      cases rest with
      | nil => simp at hm2
      | cons b rest2 =>
        obtain ⟨kb, vb⟩ := b
        have hkb_mem : ((kb, vb) : Nat × Nat) ∈ (k1, v1) :: (kb, vb) :: rest2 := by
          exact List.mem_cons_of_mem _ (List.mem_cons_self _ _)
        have hkb_gt : k1 < kb := (List.pairwise_cons.1 hs).1 _ (List.mem_cons_self _ _)
        have hkb_ge : k2 ≤ kb := by
          rcases hbet kb (BTreeMap.get_isSome_of_mem hkb_mem) with h3 | h3
          · omega
          · exact h3
        have hkb_le : kb ≤ k2 := by
          rcases List.mem_cons.1 hm2 with h4 | h4
          · cases h4; omega
          · have := (List.pairwise_cons.1 hsrest).1 _ h4
            omega
        have hk2b : k2 = kb := le_antisymm hkb_ge hkb_le
        subst hk2b
        rw [BTreeMap.get_cons_self] at h2
        cases h2
        exact (List.chain'_cons.1 hc).1
    · rw [BTreeMap.get_cons_ne hk1] at h1
      have hm1 : (k1, v1) ∈ rest := BTreeMap.get_mem h1
      have hk1a : ka < k1 := (List.pairwise_cons.1 hs).1 _ hm1
      have hk2a : k2 ≠ ka := by omega
      rw [BTreeMap.get_cons_ne hk2a] at h2
      refine ih hsrest hc.tail h1 h2 ?_
      · intro k hk
        obtain ⟨v, hv⟩ := Option.isSome_iff_exists.1 hk
        have : (k, v) ∈ (ka, va) :: rest := List.mem_cons_of_mem _ (BTreeMap.get_mem hv)
        exact hbet k (BTreeMap.get_isSome_of_mem this)

/-- The converse bridge: a relation that holds at every adjacent key
pair holds along the list. -/
theorem chain'_of_adjKeys {R : Nat × Nat → Nat × Nat → Prop} {t : BTreeMap}
    (hs : BTreeMap.Sorted t)
    (hR : ∀ k1 v1 k2 v2, AdjKeys t k1 k2 → t.get k1 = some v1 →
      t.get k2 = some v2 → R (k1, v1) (k2, v2)) : List.Chain' R t := by
  induction t with
  | nil => simp
  | cons a rest ih =>
    obtain ⟨ka, va⟩ := a
    have hsrest : BTreeMap.Sorted rest := (List.pairwise_cons.1 hs).2
    cases rest with
    | nil => simp
    | cons b rest2 =>
      obtain ⟨kb, vb⟩ := b
      have hab : ka < kb := (List.pairwise_cons.1 hs).1 _ (List.mem_cons_self _ _)
      refine List.chain'_cons.2 ⟨?_, ?_⟩
      · refine hR ka va kb vb ⟨hab, ?_, ?_, ?_⟩ BTreeMap.get_cons_self ?_
        · simp [BTreeMap.get]
        · rw [BTreeMap.get_cons_ne (by omega : kb ≠ ka), BTreeMap.get_cons_self]
          rfl
        · intro k hk
          obtain ⟨v, hv⟩ := Option.isSome_iff_exists.1 hk
          have hm := BTreeMap.get_mem hv
          rcases List.mem_cons.1 hm with h4 | h4
          · cases h4; omega
          · rcases List.mem_cons.1 h4 with h5 | h5
            · cases h5; omega
            · have := (List.pairwise_cons.1 hsrest).1 _ h5
              omega
        · rw [BTreeMap.get_cons_ne (by omega : kb ≠ ka), BTreeMap.get_cons_self]
      · refine ih hsrest ?_
        intro k1 v1 k2 v2 hadj h1 h2
        obtain ⟨hlt, hi1, hi2, hbet⟩ := hadj
        have hm1 : (k1, v1) ∈ (kb, vb) :: rest2 := BTreeMap.get_mem h1
        have hk1b : kb ≤ k1 := by
          rcases List.mem_cons.1 hm1 with h4 | h4
          · cases h4; omega
          · have := (List.pairwise_cons.1 hsrest).1 _ h4
            omega
        have hk1a : k1 ≠ ka := by omega
        have hk2a : k2 ≠ ka := by omega
        refine hR k1 v1 k2 v2 ⟨hlt, ?_, ?_, ?_⟩ ?_ ?_
        · rw [BTreeMap.get_cons_ne hk1a]; exact hi1
        · rw [BTreeMap.get_cons_ne hk2a]; exact hi2
        · intro k hk
          by_cases hka : k = ka
          · subst hka; omega
          · rw [BTreeMap.get_cons_ne hka] at hk
            exact hbet k hk
        · rw [BTreeMap.get_cons_ne hk1a]; exact h1
        · rw [BTreeMap.get_cons_ne hk2a]; exact h2

/-- Fold of `BTreeMap.remove` over a key list (the removals performed by
the insert loop, in order). -/
def removeAll (t : BTreeMap) (ks : List Nat) : BTreeMap := ks.foldl BTreeMap.remove t

theorem removeAll_nil (t : BTreeMap) : removeAll t [] = t := rfl

theorem removeAll_cons (t : BTreeMap) (a : Nat) (ks : List Nat) :
    removeAll t (a :: ks) = removeAll (t.remove a) ks := rfl

theorem Sorted_removeAll {t : BTreeMap} (hs : BTreeMap.Sorted t) (ks : List Nat) :
    BTreeMap.Sorted (removeAll t ks) := by
  induction ks generalizing t with
  | nil => exact hs
  | cons a ks ih => exact ih (BTreeMap.Sorted.remove hs a)

theorem get_removeAll {t : BTreeMap} (hs : BTreeMap.Sorted t) (ks : List Nat) (k : Nat) :
    (removeAll t ks).get k = if k ∈ ks then none else t.get k := by
  induction ks generalizing t with
  | nil => simp [removeAll_nil]
  | cons a ks ih =>
    rw [removeAll_cons, ih (BTreeMap.Sorted.remove hs a)]
    by_cases hk : k = a
    · subst hk
      simp [BTreeMap.get_remove_self hs]
    · by_cases hk2 : k ∈ ks
      · simp [hk2]
      · simp [hk, hk2, BTreeMap.get_remove_ne t a k hk]

/-- Decomposing an adjacent pair of a `cons`: either it is the head
together with the head of the tail, or an adjacent pair of the tail. -/
theorem adjKeys_cons_elim {a : Nat × Nat} {rest : BTreeMap}
    (hs : BTreeMap.Sorted (a :: rest)) {k1 k2 : Nat}
    (h : AdjKeys (a :: rest) k1 k2) :
    (k1 = a.1 ∧ ∃ b rest', rest = b :: rest' ∧ k2 = b.1) ∨ AdjKeys rest k1 k2 := by
  obtain ⟨ka, va⟩ := a
  obtain ⟨hlt, hi1, hi2, hbet⟩ := h
  have hsrest : BTreeMap.Sorted rest := (List.pairwise_cons.1 hs).2
  by_cases hk1 : k1 = ka
  · subst hk1
    left
    refine ⟨rfl, ?_⟩
    have hk2ne : k2 ≠ k1 := by omega
    rw [BTreeMap.get_cons_ne hk2ne] at hi2
    obtain ⟨v2, h2⟩ := Option.isSome_iff_exists.1 hi2
    have hm2 : (k2, v2) ∈ rest := BTreeMap.get_mem h2
    cases rest with
    | nil => simp at hm2
    | cons b rest2 =>
      obtain ⟨kb, vb⟩ := b
      refine ⟨(kb, vb), rest2, rfl, ?_⟩
      have hkb_mem : ((kb, vb) : Nat × Nat) ∈ (k1, va) :: (kb, vb) :: rest2 :=
        List.mem_cons_of_mem _ (List.mem_cons_self _ _)
      have hkb_gt : k1 < kb := (List.pairwise_cons.1 hs).1 _ (List.mem_cons_self _ _)
      have hkb_ge : k2 ≤ kb := by
        rcases hbet kb (BTreeMap.get_isSome_of_mem hkb_mem) with h3 | h3
        · omega
        · exact h3
      have hkb_le : kb ≤ k2 := by
        rcases List.mem_cons.1 hm2 with h4 | h4
        · cases h4; omega
        · have := (List.pairwise_cons.1 hsrest).1 _ h4
          omega
      omega
  · right
    rw [BTreeMap.get_cons_ne hk1] at hi1
    obtain ⟨v1, h1⟩ := Option.isSome_iff_exists.1 hi1
    have hm1 : (k1, v1) ∈ rest := BTreeMap.get_mem h1
    have hk1a : ka < k1 := (List.pairwise_cons.1 hs).1 _ hm1
    have hk2a : k2 ≠ ka := by omega
    rw [BTreeMap.get_cons_ne hk2a] at hi2
    refine ⟨hlt, by rw [h1]; rfl, hi2, ?_⟩
    intro k hk
    by_cases hka : k = ka
    · subst hka; omega
    · refine hbet k ?_
      rw [BTreeMap.get_cons_ne hka]
      exact hk

/-- In a sorted map, a `Pairwise` relation applies to any two entries in
key order. -/
theorem sorted_pairwise_rel {R : Nat × Nat → Nat × Nat → Prop} {t : BTreeMap}
    (hs : BTreeMap.Sorted t) (hp : List.Pairwise R t) {k1 v1 k2 v2 : Nat}
    (h1 : (k1, v1) ∈ t) (h2 : (k2, v2) ∈ t) (hlt : k1 < k2) : R (k1, v1) (k2, v2) := by
  induction t with
  | nil => simp at h1
  | cons a rest ih =>
    obtain ⟨ka, va⟩ := a
    have hsrest : BTreeMap.Sorted rest := (List.pairwise_cons.1 hs).2
    rcases List.mem_cons.1 h1 with e1 | m1
    · rcases List.mem_cons.1 h2 with e2 | m2
      · cases e1; cases e2; omega
      · cases e1; exact (List.pairwise_cons.1 hp).1 _ m2
    · rcases List.mem_cons.1 h2 with e2 | m2
      · have := (List.pairwise_cons.1 hs).1 _ m1
        cases e2; omega
      · exact ih hsrest (List.pairwise_cons.1 hp).2 m1 m2

/-- The offsets computed by one propagation pass over the walked entry
list, as an association list parallel to it. -/
def updChain : Nat → Nat → Nat → List (Nat × Nat) → List (Nat × Nat)
  | _, _, _, [] => []
  | pi, ps, po, (i, z) :: rest =>
    (i, (i - pi) * ps + po) :: updChain i z ((i - pi) * ps + po) rest

theorem updChain_keys (rest : List (Nat × Nat)) :
    ∀ pi ps po, (updChain pi ps po rest).map Prod.fst = rest.map Prod.fst := by
  induction rest with
  | nil => intro pi ps po; rfl
  | cons a rest ih =>
    intro pi ps po
    obtain ⟨i, z⟩ := a
    simp only [updChain, List.map_cons, ih]

theorem updChain_get_none {rest : List (Nat × Nat)} {k : Nat}
    (h : BTreeMap.get rest k = none) :
    ∀ pi ps po, BTreeMap.get (updChain pi ps po rest) k = none := by
  intro pi ps po
  apply BTreeMap.get_eq_none_of_not_mem
  intro v hv
  have hk : k ∈ (updChain pi ps po rest).map Prod.fst := List.mem_map.2 ⟨(k, v), hv, rfl⟩
  rw [updChain_keys] at hk
  have : (BTreeMap.get rest k).isSome := BTreeMap.mem_keys_iff_get.1 hk
  rw [h] at this
  simp at this

theorem updChain_sorted {rest : List (Nat × Nat)} (hs : BTreeMap.Sorted rest) :
    ∀ pi ps po, BTreeMap.Sorted (updChain pi ps po rest) := by
  induction rest with
  | nil => intro _ _ _; simp [updChain, BTreeMap.Sorted]
  | cons a rest ih =>
    intro pi ps po
    obtain ⟨i, z⟩ := a
    simp only [updChain]
    refine List.pairwise_cons.2 ⟨?_, ih (List.pairwise_cons.1 hs).2 _ _ _⟩
    intro q hq
    have hk : q.1 ∈ (updChain i z ((i - pi) * ps + po) rest).map Prod.fst :=
      List.mem_map.2 ⟨q, hq, rfl⟩
    rw [updChain_keys] at hk
    obtain ⟨p, hp, he⟩ := List.mem_map.1 hk
    have := (List.pairwise_cons.1 hs).1 p hp
    omega

theorem updChain_ge {rest : List (Nat × Nat)} :
    ∀ pi ps po, ∀ q ∈ updChain pi ps po rest, po ≤ q.2 := by
  induction rest with
  | nil => intro _ _ _ q hq; simp [updChain] at hq
  | cons a rest ih =>
    intro pi ps po q hq
    obtain ⟨i, z⟩ := a
    simp only [updChain] at hq
    rcases List.mem_cons.1 hq with rfl | hq'
    · simp
    · have := ih i z ((i - pi) * ps + po) q hq'
      omega

theorem updChain_mono {rest : List (Nat × Nat)} (hs : BTreeMap.Sorted rest)
    (hpos : ∀ p ∈ rest, 0 < p.2) :
    ∀ pi ps po, List.Chain' (fun a b => a.2 < b.2) (updChain pi ps po rest) := by
  induction rest with
  | nil => intro _ _ _; simp [updChain]
  | cons a rest ih =>
    intro pi ps po
    obtain ⟨i, z⟩ := a
    simp only [updChain]
    cases rest with
    | nil => simp [updChain]
    | cons b rest2 =>
      obtain ⟨i2, z2⟩ := b
      refine List.chain'_cons.2 ⟨?_, ?_⟩
      · simp only [updChain]
        have h1 : i < i2 := (List.pairwise_cons.1 hs).1 _ (List.mem_cons_self _ _)
        have h2 : 0 < z := hpos _ (List.mem_cons_self _ _)
        have : 0 < (i2 - i) * z := Nat.mul_pos (by omega) h2
        omega
      · exact ih (List.pairwise_cons.1 hs).2
          (fun p hp => hpos p (List.mem_cons_of_mem _ hp)) _ _ _

theorem OffsetList.updLoop_cons (i z pi ps po : Nat) (o p : BTreeMap) (rest : List (Nat × Nat)) :
    OffsetList.updLoop ((i, z) :: rest) pi ps po o p =
      OffsetList.updLoop rest i z ((i - pi) * ps + po)
        (o.insert i ((i - pi) * ps + po)) (p.insert ((i - pi) * ps + po) i) := rfl

theorem OffsetList.updLoop_fst_get {rest : List (Nat × Nat)} (hs : BTreeMap.Sorted rest) :
    ∀ pi ps po (o p : BTreeMap) (k : Nat),
      (OffsetList.updLoop rest pi ps po o p).1.get k =
        match BTreeMap.get (updChain pi ps po rest) k with
        | some w => some w
        | none => o.get k := by
  induction rest with
  | nil => intro pi ps po o p k; simp [OffsetList.updLoop, updChain, BTreeMap.get]
  | cons a rest ih =>
    intro pi ps po o p k
    obtain ⟨i, z⟩ := a
    simp only [OffsetList.updLoop, updChain]
    rw [ih (List.pairwise_cons.1 hs).2]
    by_cases hk : k = i
    · subst hk
      have hnone : BTreeMap.get rest k = none := by
        apply BTreeMap.get_eq_none_of_not_mem
        intro v hv
        have := (List.pairwise_cons.1 hs).1 _ hv
        omega
      rw [updChain_get_none hnone]
      simp [BTreeMap.get, BTreeMap.get_insert_self]
    · rw [BTreeMap.get_insert_ne _ _ _ _ hk, BTreeMap.get_cons_ne hk]

theorem OffsetList.updLoop_fst_sorted {rest : List (Nat × Nat)} :
    ∀ pi ps po (o p : BTreeMap), BTreeMap.Sorted o →
      BTreeMap.Sorted (OffsetList.updLoop rest pi ps po o p).1 := by
  induction rest with
  | nil => intro _ _ _ _ _ h; exact h
  | cons a rest ih =>
    intro pi ps po o p h
    obtain ⟨i, z⟩ := a
    exact ih _ _ _ _ _ (BTreeMap.Sorted.insert h _ _)

theorem chain'_lt_head {a : Nat × Nat} {l : List (Nat × Nat)}
    (h : List.Chain' (fun x y => x.2 < y.2) (a :: l)) : ∀ b ∈ l, a.2 < b.2 := by
  induction l generalizing a with
  | nil => simp
  | cons c l2 ih =>
    intro b hb
    have h1 : a.2 < c.2 := (List.chain'_cons.1 h).1
    rcases List.mem_cons.1 hb with rfl | hb'
    · exact h1
    · have := ih (List.chain'_cons.1 h).2 b hb'
      omega

theorem OffsetList.updLoop_snd_get {rest : List (Nat × Nat)} :
    ∀ pi ps po (o p : BTreeMap),
      List.Chain' (fun a b => a.2 < b.2) (updChain pi ps po rest) →
      (∀ q ∈ updChain pi ps po rest, (OffsetList.updLoop rest pi ps po o p).2.get q.2 = some q.1) ∧
      (∀ w, (∀ q ∈ updChain pi ps po rest, w ≠ q.2) →
        (OffsetList.updLoop rest pi ps po o p).2.get w = p.get w) := by
  induction rest with
  | nil =>
    intro pi ps po o p _
    constructor
    · intro q hq; simp [updChain] at hq
    · intro w _; rfl
  | cons a rest ih =>
    intro pi ps po o p hmono
    obtain ⟨i, z⟩ := a
    simp only [updChain] at hmono ⊢
    have hmono' := (by
      cases hc : updChain i z ((i - pi) * ps + po) rest with
      | nil => simp
      | cons x xs =>
        rw [hc] at hmono
        exact (List.chain'_cons.1 hmono).2 : List.Chain'
          (fun a b => a.2 < b.2) (updChain i z ((i - pi) * ps + po) rest))
    have ihab := ih i z ((i - pi) * ps + po) (o.insert i ((i - pi) * ps + po))
      (p.insert ((i - pi) * ps + po) i) hmono'
    constructor
    · intro q hq
      rcases List.mem_cons.1 hq with rfl | hq'
      · rw [updLoop_cons]
        rw [ihab.2 _ ?_]
        · exact BTreeMap.get_insert_self _ _ _
        · intro q2 hq2
          have := chain'_lt_head hmono q2 hq2
          omega
      · rw [updLoop_cons]
        exact ihab.1 q hq'
    · intro w hw
      rw [updLoop_cons]
      rw [ihab.2 _ (fun q2 hq2 => hw q2 (List.mem_cons_of_mem _ hq2))]
      exact BTreeMap.get_insert_ne _ _ _ _ (hw _ (List.mem_cons_self _ _))

theorem BTreeMap.get_filter {t : BTreeMap} (hs : BTreeMap.Sorted t)
    (f : Nat × Nat → Bool) (k : Nat) :
    BTreeMap.get (t.filter f) k =
      match t.get k with
      | some v => if f (k, v) then some v else none
      | none => none := by
  induction t with
  | nil => rfl
  | cons a rest ih =>
    obtain ⟨k', v'⟩ := a
    have hsrest : BTreeMap.Sorted rest := (List.pairwise_cons.1 hs).2
    by_cases hf : f (k', v')
    · rw [List.filter_cons_of_pos hf]
      by_cases hk : k = k'
      · subst hk; simp [BTreeMap.get, hf]
      · rw [BTreeMap.get_cons_ne hk, BTreeMap.get_cons_ne hk, ih hsrest]
    · rw [List.filter_cons_of_neg (by simpa using hf)]
      by_cases hk : k = k'
      · subst hk
        have hr : BTreeMap.get rest k = none := by
          apply BTreeMap.get_eq_none_of_not_mem
          intro v hv
          have := (List.pairwise_cons.1 hs).1 _ hv
          omega
        rw [ih hsrest, hr, BTreeMap.get_cons_self]
        simp [hf]
      · rw [BTreeMap.get_cons_ne hk, ih hsrest]

theorem BTreeMap.get_rangeFrom {t : BTreeMap} (hs : BTreeMap.Sorted t) (a k : Nat) :
    (t.rangeFrom a).get k = if a ≤ k then t.get k else none := by
  rw [BTreeMap.rangeFrom, BTreeMap.get_filter hs]
  cases h : t.get k with
  | none => simp
  | some v =>
    by_cases hak : a ≤ k
    · simp [hak]
    · simp [hak]

theorem BTreeMap.get_rangeII {t : BTreeMap} (hs : BTreeMap.Sorted t) (a b k : Nat) :
    (t.rangeII a b).get k = if a ≤ k ∧ k ≤ b then t.get k else none := by
  rw [BTreeMap.rangeII, BTreeMap.get_filter hs]
  cases h : t.get k with
  | none => simp
  | some v =>
    by_cases h1 : a ≤ k <;> by_cases h2 : k ≤ b <;> simp [h1, h2]

/-- A sorted map whose minimal possible key is present decomposes with
that entry at the head. -/
theorem BTreeMap.sorted_eq_cons {t : BTreeMap} (hs : BTreeMap.Sorted t)
    {c vc : Nat} (hm : (c, vc) ∈ t) (hmin : ∀ p ∈ t, c ≤ p.1) :
    ∃ rest, t = (c, vc) :: rest := by
  cases t with
  | nil => simp at hm
  | cons a rest =>
    rcases List.mem_cons.1 hm with e | m
    · exact ⟨rest, by rw [e]⟩
    · have h1 := (List.pairwise_cons.1 hs).1 _ m
      have h2 := hmin a (List.mem_cons_self _ _)
      omega

/-- The keys the insert loop removes: subsequent range starts that lie
at or before `end`, or whose run size equals the inserted size. -/
def remT (e size : Nat) (nodes : List (Nat × Nat)) : List Nat :=
  (nodes.filter (fun p => e ≥ p.1 ∨ size = p.2)).map Prod.fst

/-- The last walked node: the run the final (artificially unbounded)
range is built from. -/
def lastKV (s z : Nat) (ns : List (Nat × Nat)) : Nat × Nat := ns.getLastD (s, z)

theorem lastKV_cons (s z k1 v1 : Nat) (ns : List (Nat × Nat)) :
    lastKV s z ((k1, v1) :: ns) = lastKV k1 v1 ns := by
  cases ns with
  | nil => rfl
  | cons b ns2 => simp [lastKV, List.getLastD]

/-- A direct description of the insert loop from its second iteration
on: each walked run start is removed when it is covered by the new
interval or carries the inserted size, and the tail of the last
overlapping run is re-inserted at `end + 1` when it extends past `end`
with a different size. -/
def loopSpec (e size : Nat) : Nat → Nat → List (Nat × Nat) → OffsetList → Option OffsetList
  | s, z, [], l =>
    match (if e ≥ s ∨ size = z then OffsetList.remove_index l s else some l) with
    | none => none
    | some l1 =>
      some (if e ≥ s ∧ z ≠ size
            then { l1 with size_tree := l1.size_tree.insert (e + 1) z } else l1)
  | s, z, (k1, v1) :: ns, l =>
    match (if e ≥ s ∨ size = z then OffsetList.remove_index l s else some l) with
    | none => none
    | some l1 => loopSpec e size k1 v1 ns l1

theorem insLoop_cons_true (e size rstart rstop rsize : Nat) (rs : List RangeR)
    (si : Bool) (l : OffsetList) :
    OffsetList.insLoop e size (⟨rstart, rstop, rsize⟩ :: rs) true si l =
      match (if e ≥ rstart ∨ size = rsize then OffsetList.remove_index l rstart
             else some l) with
      | none => none
      | some l1 =>
        OffsetList.insLoop e size rs true si
          (if rstop > e ∧ e ≥ rstart ∧ rsize ≠ size
           then { l1 with size_tree := l1.size_tree.insert (e + 1) rsize } else l1) := by
  by_cases hC : e ≥ rstart ∨ size = rsize
  · rw [if_pos hC]
    cases hrem : OffsetList.remove_index l rstart with
    | none => simp [OffsetList.insLoop, hC, hrem]
    | some l1 => simp [OffsetList.insLoop, hC, hrem]
  · rw [if_neg hC]
    simp [OffsetList.insLoop, hC]

theorem insLoop_eq_loopSpec (e size : Nat) (hM : e < LAST_RANGE_END) :
    ∀ (ns : List (Nat × Nat)) (s z : Nat) (si : Bool) (l : OffsetList),
      (∀ p ∈ ns, p.1 ≤ e + 1) →
      OffsetList.insLoop e size (rangesGo s z ns) true si l =
        (loopSpec e size s z ns l).map (fun l2 => (si, l2)) := by
  intro ns
  induction ns with
  | nil =>
    intro s z si l _
    rw [show rangesGo s z [] = [⟨s, LAST_RANGE_END, z⟩] from rfl, insLoop_cons_true]
    simp only [loopSpec]
    cases h1 : (if e ≥ s ∨ size = z then OffsetList.remove_index l s else some l) with
    | none => rfl
    | some l1 =>
      dsimp only
      have hstop : (LAST_RANGE_END > e ∧ e ≥ s ∧ z ≠ size) ↔ (e ≥ s ∧ z ≠ size) := by
        constructor
        · rintro ⟨_, h2, h3⟩; exact ⟨h2, h3⟩
        · rintro ⟨h2, h3⟩; exact ⟨hM, h2, h3⟩
      by_cases h2 : e ≥ s ∧ z ≠ size
      · rw [if_pos (hstop.2 h2), if_pos h2]
        rfl
      · rw [if_neg (fun h3 => h2 (hstop.1 h3)), if_neg h2]
        rfl
  | cons a ns ih =>
    intro s z si l hub
    obtain ⟨k1, v1⟩ := a
    rw [show rangesGo s z ((k1, v1) :: ns) = ⟨s, k1 - 1, z⟩ :: rangesGo k1 v1 ns from rfl,
      insLoop_cons_true]
    simp only [loopSpec]
    cases h1 : (if e ≥ s ∨ size = z then OffsetList.remove_index l s else some l) with
    | none => rfl
    | some l1 =>
      dsimp only
      have hk1 : k1 ≤ e + 1 := hub (k1, v1) (List.mem_cons_self _ _)
      have hstop : ¬ (k1 - 1 > e ∧ e ≥ s ∧ z ≠ size) := by
        rintro ⟨h2, _, _⟩; omega
      rw [if_neg hstop]
      exact ih k1 v1 si l1 (fun p hp => hub p (List.mem_cons_of_mem _ hp))

theorem remT_cons (e size s z : Nat) (ns : List (Nat × Nat)) :
    remT e size ((s, z) :: ns) =
      (if e ≥ s ∨ size = z then [s] else []) ++ remT e size ns := by
  by_cases hC : e ≥ s ∨ size = z
  · simp [remT, hC]
  · simp [remT, hC]

theorem removeAll_append (t : BTreeMap) (ks1 ks2 : List Nat) :
    removeAll t (ks1 ++ ks2) = removeAll (removeAll t ks1) ks2 := by
  simp [removeAll, List.foldl_append]

/-- Closed form of the insert loop: the keys in `remT` are removed from
the size and offset trees (with the matching pixel entries), and the
last run's tail is conditionally re-inserted at `end + 1`. -/
theorem loopSpec_spec (e size : Nat) :
    ∀ (ns : List (Nat × Nat)) (s z : Nat) (l l' : OffsetList),
      List.Pairwise (fun a b => a < b) (s :: ns.map Prod.fst) →
      loopSpec e size s z ns l = some l' →
      l'.size_tree =
        (if e ≥ (lastKV s z ns).1 ∧ (lastKV s z ns).2 ≠ size
         then (removeAll l.size_tree (remT e size ((s, z) :: ns))).insert (e + 1)
           (lastKV s z ns).2
         else removeAll l.size_tree (remT e size ((s, z) :: ns))) ∧
      l'.offset_tree = removeAll l.offset_tree (remT e size ((s, z) :: ns)) ∧
      (∀ w, (∀ k ∈ remT e size ((s, z) :: ns), ∀ ok,
          l.offset_tree.get k = some ok → w ≠ ok) →
        l'.pixel_tree.get w = l.pixel_tree.get w) ∧
      (∀ k ∈ remT e size ((s, z) :: ns), (l.offset_tree.get k).isSome) := by
  intro ns
  induction ns with
  | nil =>
    intro s z l l' _ h
    simp only [loopSpec] at h
    by_cases hC : e ≥ s ∨ size = z
    · rw [if_pos hC] at h
      cases hrem : OffsetList.remove_index l s with
      | none => rw [hrem] at h; cases h
      | some l1 =>
        rw [hrem] at h
        cases h
        unfold OffsetList.remove_index at hrem
        cases hget : l.offset_tree.get s with
        | none => rw [hget] at hrem; cases hrem
        | some px =>
          rw [hget] at hrem
          cases hrem
          have hrem' : remT e size [(s, z)] = [s] := by simp [remT, hC]
          refine ⟨?_, ?_, ?_, ?_⟩
          · simp only [hrem', lastKV, List.getLastD]
            by_cases h2 : e ≥ s ∧ z ≠ size <;>
              simp [h2, removeAll_cons, removeAll_nil]
          · by_cases h2 : e ≥ s ∧ z ≠ size <;>
              simp [h2, hrem', removeAll_cons, removeAll_nil]
          · intro w hw
            have hwpx : w ≠ px := hw s (by simp [hrem']) px hget
            by_cases h2 : e ≥ s ∧ z ≠ size <;>
              simp [h2, BTreeMap.get_remove_ne _ _ _ hwpx]
          · intro k hk
            rw [hrem'] at hk
            simp at hk
            subst hk
            simp [hget]
    · rw [if_neg hC] at h
      cases h
      have hrem' : remT e size [(s, z)] = [] := by simp [remT, hC]
      have hfire : ¬ (e ≥ s ∧ z ≠ size) := fun h2 => hC (Or.inl h2.1)
      refine ⟨?_, ?_, ?_, ?_⟩
      · simp [hrem', hfire, lastKV, List.getLastD, removeAll_nil]
      · simp [hfire, hrem', removeAll_nil]
      · intro w _
        simp [hfire]
      · intro k hk; rw [hrem'] at hk; simp at hk
  | cons a ns ih =>
    obtain ⟨k1, v1⟩ := a
    intro s z l l' hpw h
    simp only [loopSpec] at h
    have hpw' : List.Pairwise (fun a b => a < b) (k1 :: ns.map Prod.fst) :=
      (List.pairwise_cons.1 (by simpa using hpw)).2
    have hsk1 : s < k1 := by
      have := (List.pairwise_cons.1 hpw).1 k1 (by simp)
      exact this
    have hrt : remT e size ((s, z) :: (k1, v1) :: ns) =
        (if e ≥ s ∨ size = z then [s] else []) ++ remT e size ((k1, v1) :: ns) :=
      remT_cons _ _ _ _ _
    have hlast : lastKV s z ((k1, v1) :: ns) = lastKV k1 v1 ns := lastKV_cons _ _ _ _ _
    have hmemrt : ∀ k ∈ remT e size ((k1, v1) :: ns), s < k := by
      intro k hk
      simp only [remT, List.mem_map] at hk
      obtain ⟨p, hp, he⟩ := hk
      have hpm := List.mem_of_mem_filter hp
      have : p.1 ∈ (((k1, v1) :: ns).map Prod.fst) := List.mem_map.2 ⟨p, hpm, rfl⟩
      have h3 := (List.pairwise_cons.1 hpw).1 p.1 this
      omega
    by_cases hC : e ≥ s ∨ size = z
    · rw [if_pos hC] at h
      cases hrem : OffsetList.remove_index l s with
      | none => rw [hrem] at h; cases h
      | some l1 =>
        rw [hrem] at h
        unfold OffsetList.remove_index at hrem
        cases hget : l.offset_tree.get s with
        | none => rw [hget] at hrem; cases hrem
        | some px =>
          rw [hget] at hrem
          cases hrem
          obtain ⟨ih1, ih2, ih3, ih4⟩ := ih k1 v1 _ l' hpw' h
          have hif : (if e ≥ s ∨ size = z then [s] else []) = [s] := if_pos hC
          refine ⟨?_, ?_, ?_, ?_⟩
          · rw [hrt, hif, hlast, removeAll_append, ih1]
            rfl
          · rw [hrt, hif, removeAll_append, ih2]
            rfl
          · intro w hw
            rw [ih3 w ?_]
            · exact BTreeMap.get_remove_ne _ _ _
                (hw s (by rw [hrt, hif]; simp) px hget)
            · intro k hk ok hko
              refine hw k (by rw [hrt, hif]; simp [hk]) ok ?_
              rw [← hko]
              exact (BTreeMap.get_remove_ne _ _ _ (by have := hmemrt k hk; omega)).symm
          · intro k hk
            rw [hrt, hif] at hk
            rcases List.mem_append.1 hk with h4 | h4
            · simp at h4; subst h4; simp [hget]
            · have h5 := ih4 k h4
              rwa [BTreeMap.get_remove_ne _ _ _
                (by have := hmemrt k h4; omega)] at h5
    · rw [if_neg hC] at h
      obtain ⟨ih1, ih2, ih3, ih4⟩ := ih k1 v1 _ l' hpw' h
      have hif : (if e ≥ s ∨ size = z then ([s] : List Nat) else []) = [] := if_neg hC
      refine ⟨?_, ?_, ?_, ?_⟩
      · rw [hrt, hif, hlast, removeAll_append, ih1]
        rfl
      · rw [hrt, hif, removeAll_append, ih2]
        rfl
      · intro w hw
        refine ih3 w ?_
        intro k hk ok hko
        exact hw k (by rw [hrt, hif]; simpa using hk) ok hko
      · intro k hk
        rw [hrt, hif] at hk
        exact ih4 k (by simpa using hk)

theorem insLoop_cons_false (e size rstart rstop rsize : Nat) (rs : List RangeR)
    (si : Bool) (l : OffsetList) :
    OffsetList.insLoop e size (⟨rstart, rstop, rsize⟩ :: rs) false si l =
      OffsetList.insLoop e size rs true (decide (rsize ≠ size))
        (if rstop > e ∧ e ≥ rstart ∧ rsize ≠ size
         then { l with size_tree := l.size_tree.insert (e + 1) rsize } else l) := by
  simp [OffsetList.insLoop]

/-- The shape of the general insert path between the range walk and the
final propagation: the first overlapping range is never removed (only
its tail re-insertion applies when it is the only overlapping range);
every later range goes through `loopSpec`. -/
def generalSpec (e size c zc : Nat) (ns : List (Nat × Nat)) (l : OffsetList) :
    Option OffsetList :=
  match ns with
  | [] => some (if e ≥ c ∧ zc ≠ size
      then { l with size_tree := l.size_tree.insert (e + 1) zc } else l)
  | (k1, v1) :: rest => loopSpec e size k1 v1 rest l

/-- The general path of `OffsetList::insert`, fully characterized:
compute the overlapping ranges from the floor of `start - 1` through
`end + 1`, apply the loop effect, insert the new run at `start` when the
first overlapping run's size differs, then propagate offsets. -/
theorem insert_general_eq {l : OffsetList} {s e z c vc : Nat} {ns : List (Nat × Nat)}
    (hne : ¬ l.size_tree = []) (hnz : l.size_tree.get s ≠ some 0)
    (hM : e < LAST_RANGE_END)
    (hfloor : lte l.size_tree (s - 1) = some (c, vc))
    (hnodes : l.size_tree.rangeII c (e + 1) = (c, vc) :: ns)
    (hub : ∀ p ∈ ns, p.1 ≤ e + 1)
    (hce : c ≤ e + 1) :
    OffsetList.insert l s e z =
      match generalSpec e z c vc ns l with
      | none => none
      | some l1 =>
        OffsetList.update_offset_tree
          (if vc ≠ z then { l1 with size_tree := l1.size_tree.insert s z } else l1) s := by
  have hrw : rangesWithin l.size_tree (s - 1) (e + 1) = some (rangesGo c vc ns) := by
    unfold rangesWithin
    rw [hfloor]
    dsimp only
    rw [if_neg (show ¬ (e + 1 < c) by omega)]
    rw [hnodes]
  have hbody :
      (match rangesWithin l.size_tree (s - 1) (e + 1) with
       | none => none
       | some ranges =>
         match OffsetList.insLoop e z ranges false false l with
         | none => none
         | some (shouldIns, l1) =>
           OffsetList.update_offset_tree
             (if shouldIns then { l1 with size_tree := l1.size_tree.insert s z } else l1)
             s) =
      (match generalSpec e z c vc ns l with
       | none => none
       | some l1 =>
         OffsetList.update_offset_tree
           (if vc ≠ z then { l1 with size_tree := l1.size_tree.insert s z } else l1) s) := by
    rw [hrw]
    cases ns with
    | nil =>
      rw [show rangesGo c vc [] = [⟨c, LAST_RANGE_END, vc⟩] from rfl]
      dsimp only
      rw [insLoop_cons_false]
      simp only [OffsetList.insLoop, generalSpec]
      have hiff : (LAST_RANGE_END > e ∧ e ≥ c ∧ vc ≠ z) ↔ (e ≥ c ∧ vc ≠ z) := by
        constructor
        · rintro ⟨_, h2, h3⟩; exact ⟨h2, h3⟩
        · rintro ⟨h2, h3⟩; exact ⟨hM, h2, h3⟩
      by_cases h2 : e ≥ c ∧ vc ≠ z
      · rw [if_pos (hiff.2 h2)]
        by_cases h3 : vc ≠ z
        · simp [h3, h2]
        · exact absurd h2.2 h3
      · rw [if_neg (fun h3 => h2 (hiff.1 h3))]
        by_cases h3 : vc ≠ z
        · have h4 : ¬ c ≤ e := fun hh => h2 ⟨hh, h3⟩
          simp [h3, h4]
        · simp [h3]
    | cons a rest =>
      obtain ⟨k1, v1⟩ := a
      rw [show rangesGo c vc ((k1, v1) :: rest) = ⟨c, k1 - 1, vc⟩ :: rangesGo k1 v1 rest
          from rfl]
      dsimp only
      rw [insLoop_cons_false]
      have hk1 : k1 ≤ e + 1 := hub (k1, v1) (List.mem_cons_self _ _)
      rw [if_neg (by rintro ⟨h2, _, _⟩; omega)]
      rw [insLoop_eq_loopSpec e z hM rest k1 v1 (decide (vc ≠ z)) l
        (fun p hp => hub p (List.mem_cons_of_mem _ hp))]
      simp only [generalSpec]
      cases hls : loopSpec e z k1 v1 rest l with
      | none => rfl
      | some l1 =>
        simp only [Option.map_some']
        by_cases h3 : vc ≠ z <;> simp [h3]
  rw [OffsetList.insert, if_neg hne]
  cases hg : l.size_tree.get s with
  | none => exact hbody
  | some v =>
    cases v with
    | zero => exact absurd hg hnz
    | succ v2 => exact hbody

theorem insert_empty_eq (l : OffsetList) (hl : l.size_tree = []) (s e z : Nat) :
    OffsetList.insert l s e z =
      OffsetList.update_offset_tree
        { l with size_tree := l.size_tree.insert 0 z } s := by
  rw [OffsetList.insert, if_pos hl]

theorem insert_placeholder_eq {l : OffsetList} {s e : Nat} (z : Nat)
    (hne : ¬ l.size_tree = []) (hg : l.size_tree.get s = some 0) :
    OffsetList.insert l s e z =
      (if s = 0 then none
       else
         match l.size_tree.get (s - 1) with
         | none => none
         | some g =>
           if g = z then
             some { size_tree := [(0, z)], offset_tree := [(0, 0)],
                    pixel_tree := l.pixel_tree }
           else
             OffsetList.update_offset_tree
               { l with size_tree :=
                   l.size_tree.map (fun p => if p.2 = 0 then (p.1, z) else p) } s) := by
  rw [OffsetList.insert, if_neg hne, hg]

theorem update_eq {m : OffsetList} {start ai az : Nat}
    (hfl : lte m.size_tree (start - 1) = some (ai, az)) :
    OffsetList.update_offset_tree m start = some
      { m with
        offset_tree := (OffsetList.updLoop (m.size_tree.rangeFrom (start - 1)) ai az
          ((m.offset_tree.get ai).getD 0) m.offset_tree m.pixel_tree).1,
        pixel_tree := (OffsetList.updLoop (m.size_tree.rangeFrom (start - 1)) ai az
          ((m.offset_tree.get ai).getD 0) m.offset_tree m.pixel_tree).2 } := by
  simp only [OffsetList.update_offset_tree]
  rw [hfl]

theorem update_none {m : OffsetList} {start : Nat}
    (hfl : lte m.size_tree (start - 1) = none) :
    OffsetList.update_offset_tree m start = none := by
  simp only [OffsetList.update_offset_tree]
  rw [hfl]

theorem updChain_head (pi ps po i z : Nat) (rest : List (Nat × Nat)) :
    updChain pi ps po ((i, z) :: rest) =
      (i, (i - pi) * ps + po) :: updChain i z ((i - pi) * ps + po) rest := rfl

/-- The chain recurrence of a propagation pass: at every adjacent pair
of walked entries, the next offset is the previous one plus the gap
times the previous size. -/
theorem updChain_adjacent {rest : List (Nat × Nat)} (hs : BTreeMap.Sorted rest) :
    ∀ pi ps po k1 z1 k2 w1,
      AdjKeys rest k1 k2 → BTreeMap.get rest k1 = some z1 →
      BTreeMap.get (updChain pi ps po rest) k1 = some w1 →
      BTreeMap.get (updChain pi ps po rest) k2 = some ((k2 - k1) * z1 + w1) := by
  induction rest with
  | nil =>
    intro pi ps po k1 z1 k2 w1 hadj _ _
    obtain ⟨_, hi1, _, _⟩ := hadj
    simp [BTreeMap.get] at hi1
  | cons a rest ih =>
    obtain ⟨i, z⟩ := a
    intro pi ps po k1 z1 k2 w1 hadj h1 hc1
    have hsrest : BTreeMap.Sorted rest := (List.pairwise_cons.1 hs).2
    rcases adjKeys_cons_elim hs hadj with ⟨hk1, b, rest', hrest, hk2⟩ | hadj'
    · subst hrest
      obtain ⟨i2, z2⟩ := b
      simp only at hk1 hk2
      subst hk1; subst hk2
      rw [BTreeMap.get_cons_self] at h1
      cases h1
      rw [updChain_head, BTreeMap.get_cons_self] at hc1
      cases hc1
      rw [updChain_head, BTreeMap.get_cons_ne (by
        have := (List.pairwise_cons.1 hs).1 _ (List.mem_cons_self _ _)
        omega), updChain_head, BTreeMap.get_cons_self]
    · have hadjK := hadj'
      obtain ⟨hlt, hi1, hi2, _⟩ := hadj'
      obtain ⟨v1', hv1⟩ := Option.isSome_iff_exists.1 hi1
      have hm1 : (k1, v1') ∈ rest := BTreeMap.get_mem hv1
      have hik1 : i < k1 := (List.pairwise_cons.1 hs).1 _ hm1
      rw [BTreeMap.get_cons_ne (by omega)] at h1
      rw [updChain_head, BTreeMap.get_cons_ne (by omega : k1 ≠ i)] at hc1
      rw [updChain_head, BTreeMap.get_cons_ne (by omega : k2 ≠ i)]
      exact ih hsrest i z _ k1 z1 k2 w1 hadjK h1 hc1

theorem updChain_get_isSome (pi ps po : Nat) (rest : List (Nat × Nat)) (k : Nat) :
    (BTreeMap.get (updChain pi ps po rest) k).isSome ↔
      (BTreeMap.get rest k).isSome := by
  rw [← BTreeMap.mem_keys_iff_get, ← BTreeMap.mem_keys_iff_get]
  unfold BTreeMap.keys
  rw [updChain_keys]

theorem updChain_gt {rest : List (Nat × Nat)} {pi ps po : Nat} (hps : 0 < ps)
    (hgt : ∀ p ∈ rest, pi < p.1) :
    ∀ q ∈ updChain pi ps po rest, po < q.2 := by
  cases rest with
  | nil => intro q hq; simp [updChain] at hq
  | cons a rest2 =>
    obtain ⟨i, z⟩ := a
    intro q hq
    have hipi : pi < i := hgt (i, z) (List.mem_cons_self _ _)
    have hpos : po < (i - pi) * ps + po := by
      have : 0 < (i - pi) * ps := Nat.mul_pos (by omega) hps
      omega
    rw [updChain_head] at hq
    rcases List.mem_cons.1 hq with rfl | hq'
    · exact hpos
    · have := updChain_ge i z ((i - pi) * ps + po) q hq'
      omega

/-- The anchor value the propagation pass reads: the offset stored at a
key, defaulting to 0. -/
def voff (l : OffsetList) (k : Nat) : Nat := (l.offset_tree.get k).getD 0

/-- Invariant of non-empty reachable states (insert-only histories with
positive sizes and ordered bounds). -/
structure InvNE (l : OffsetList) : Prop where
  ssorted : BTreeMap.Sorted l.size_tree
  osorted : BTreeMap.Sorted l.offset_tree
  spos : ∀ k v, l.size_tree.get k = some v → 0 < v
  szero : (l.size_tree.get 0).isSome
  adj : ∀ k1 v1 k2 v2, AdjKeys l.size_tree k1 k2 → l.size_tree.get k1 = some v1 →
    l.size_tree.get k2 = some v2 → v1 ≠ v2
  osub : ∀ k, (l.offset_tree.get k).isSome → (l.size_tree.get k).isSome
  ocov : ∀ k, k ≠ 0 → (l.size_tree.get k).isSome → (l.offset_tree.get k).isSome
  ozero : ∀ w, l.offset_tree.get 0 = some w → w = 0
  orec : ∀ k1 v1 k2, AdjKeys l.size_tree k1 k2 → l.size_tree.get k1 = some v1 →
    l.offset_tree.get k2 = some (voff l k1 + (k2 - k1) * v1)
  omono : ∀ k1 w1 k2 w2, k1 < k2 → l.offset_tree.get k1 = some w1 →
    l.offset_tree.get k2 = some w2 → w1 < w2
  opix : ∀ k w, l.offset_tree.get k = some w → l.pixel_tree.get w = some k

/-- What must hold of the intermediate state (after the size tree edit,
before `update_offset_tree(start)`) for the propagation to restore the
full invariant. -/
structure PreUpd (m : OffsetList) (start : Nat) : Prop where
  ssorted : BTreeMap.Sorted m.size_tree
  osorted : BTreeMap.Sorted m.offset_tree
  spos : ∀ k v, m.size_tree.get k = some v → 0 < v
  szero : (m.size_tree.get 0).isSome
  adj : ∀ k1 v1 k2 v2, AdjKeys m.size_tree k1 k2 → m.size_tree.get k1 = some v1 →
    m.size_tree.get k2 = some v2 → v1 ≠ v2
  osub : ∀ k, (m.offset_tree.get k).isSome → (m.size_tree.get k).isSome
  ozero : ∀ w, m.offset_tree.get 0 = some w → w = 0
  omono : ∀ k1 w1 k2 w2, k1 < k2 → m.offset_tree.get k1 = some w1 →
    m.offset_tree.get k2 = some w2 → w1 < w2
  opix : ∀ k w, m.offset_tree.get k = some w → m.pixel_tree.get w = some k
  ocovB : ∀ k, k ≠ 0 → k ≤ start - 1 → (m.size_tree.get k).isSome →
    (m.offset_tree.get k).isSome
  orecB : ∀ k1 v1 k2, k2 ≤ start - 1 → AdjKeys m.size_tree k1 k2 →
    m.size_tree.get k1 = some v1 →
    m.offset_tree.get k2 = some (voff m k1 + (k2 - k1) * v1)

theorem chain'_lt_pairwise {l : List (Nat × Nat)}
    (h : List.Chain' (fun a b => a.2 < b.2) l) :
    List.Pairwise (fun a b => a.2 < b.2) l := by
  induction l with
  | nil => simp
  | cons a l2 ih =>
    exact List.pairwise_cons.2 ⟨chain'_lt_head h, ih h.tail⟩

/-- Offset propagation restores the full invariant from the
intermediate-state conditions. -/
theorem update_preserves {m : OffsetList} {start : Nat} {l' : OffsetList}
    (P : PreUpd m start) (h : OffsetList.update_offset_tree m start = some l') :
    InvNE l' := by
  cases hfl : lte m.size_tree (start - 1) with
  | none => rw [update_none hfl] at h; cases h
  | some av =>
    obtain ⟨ai, az⟩ := av
    rw [update_eq hfl] at h
    injection h with h
    subst h
    have hsu : BTreeMap.Sorted (m.size_tree.rangeFrom (start - 1)) :=
      BTreeMap.Sorted.filter P.ssorted _
    have hupget : ∀ k, BTreeMap.get (m.size_tree.rangeFrom (start - 1)) k =
        if start - 1 ≤ k then m.size_tree.get k else none :=
      fun k => BTreeMap.get_rangeFrom P.ssorted (start - 1) k
    have hmemup : ∀ p ∈ m.size_tree.rangeFrom (start - 1), p ∈ m.size_tree ∧ start - 1 ≤ p.1 := by
      intro p hp
      refine ⟨List.mem_of_mem_filter hp, ?_⟩
      have := List.of_mem_filter hp
      simpa using this
    have hupos : ∀ p ∈ m.size_tree.rangeFrom (start - 1), 0 < p.2 := by
      intro p hp
      exact P.spos p.1 p.2 (BTreeMap.get_of_mem P.ssorted (hmemup p hp).1)
    have haimem : (ai, az) ∈ m.size_tree := (lte_mem hfl).1
    have haile : ai ≤ start - 1 := (lte_mem hfl).2
    have hgr := lte_greatest P.ssorted hfl
    have haz : m.size_tree.get ai = some az := lte_get P.ssorted hfl
    have hazpos : 0 < az := P.spos _ _ haz
    have hupgtai : ∀ p ∈ m.size_tree.rangeFrom (start - 1), ai ≤ p.1 := by
      intro p hp
      have := (hmemup p hp).2
      omega
    -- abbreviations
    set lk := start - 1 with hlkdef
    set po := (m.offset_tree.get ai).getD 0 with hpodef
    set upd := m.size_tree.rangeFrom lk with hupddef
    set chain := updChain ai az po upd with hchaindef
    have hchsorted : BTreeMap.Sorted chain := updChain_sorted hsu _ _ _
    have hchm : List.Chain' (fun a b => a.2 < b.2) chain := updChain_mono hsu hupos _ _ _
    have hchpw : List.Pairwise (fun a b => a.2 < b.2) chain := chain'_lt_pairwise hchm
    have hchge : ∀ q ∈ chain, po ≤ q.2 := updChain_ge _ _ _
    have ho : ∀ k, BTreeMap.get
        (OffsetList.updLoop upd ai az po m.offset_tree m.pixel_tree).1 k =
        match BTreeMap.get chain k with
        | some w => some w
        | none => m.offset_tree.get k :=
      fun k => OffsetList.updLoop_fst_get hsu ai az po m.offset_tree m.pixel_tree k
    have hpixf := OffsetList.updLoop_snd_get ai az po m.offset_tree m.pixel_tree hchm
    have hchiff : ∀ k, (BTreeMap.get chain k).isSome ↔ (BTreeMap.get upd k).isSome :=
      fun k => updChain_get_isSome ai az po upd k
    have hchnone : ∀ k, k < lk → BTreeMap.get chain k = none := by
      intro k hk
      cases hc : BTreeMap.get chain k with
      | none => rfl
      | some w =>
        have h1 := (hchiff k).1 (by simp [hc])
        rw [hupget k, if_neg (by omega)] at h1
        simp at h1
    have hchsome : ∀ k, lk ≤ k → (m.size_tree.get k).isSome →
        (BTreeMap.get chain k).isSome := by
      intro k hk hsk
      refine (hchiff k).2 ?_
      rw [hupget k, if_pos hk]
      exact hsk
    have hosub' : ∀ k, (BTreeMap.get chain k).isSome → (m.size_tree.get k).isSome := by
      intro k hk
      have := (hchiff k).1 hk
      rw [hupget k] at this
      by_cases h2 : lk ≤ k
      · rwa [if_pos h2] at this
      · rw [if_neg h2] at this; simp at this
    -- the case distinction helper for entries that keep their old offset
    have hold : ∀ k w, BTreeMap.get chain k = none → m.offset_tree.get k = some w →
        k ≤ ai ∧ (k = ai → w = po ∧ ai < lk) := by
      intro k w hc hw
      have hks : (m.size_tree.get k).isSome := P.osub k (by simp [hw])
      have hklt : k < lk := by
        by_contra h2
        have := hchsome k (by omega) hks
        rw [hc] at this
        simp at this
      obtain ⟨v, hv⟩ := Option.isSome_iff_exists.1 hks
      have hk_le : k ≤ ai := hgr (k, v) (BTreeMap.get_mem hv) (by omega)
      refine ⟨hk_le, ?_⟩
      rintro rfl
      rw [hw] at hpodef
      exact ⟨by simp [hpodef], by omega⟩
    -- strict bound for chain entries when the anchor is below the window
    have hchgt : ai < lk → ∀ q ∈ chain, po < q.2 := by
      intro hailt q hq
      refine updChain_gt hazpos ?_ q hq
      intro p hp
      have := (hmemup p hp).2
      omega
    refine ⟨P.ssorted, ?_, P.spos, P.szero, P.adj, ?_, ?_, ?_, ?_, ?_, ?_⟩
    · -- offset tree sorted
      exact OffsetList.updLoop_fst_sorted _ _ _ _ _ P.osorted
    · -- osub
      intro k hk
      rw [ho k] at hk
      cases hc : BTreeMap.get chain k with
      | some w => exact hosub' k (by simp [hc])
      | none =>
        rw [hc] at hk
        exact P.osub k hk
    · -- ocov
      intro k hk0 hks
      rw [ho k]
      cases hc : BTreeMap.get chain k with
      | some w => simp
      | none =>
        have hklt : k < lk := by
          by_contra h2
          have := hchsome k (by omega) hks
          rw [hc] at this
          simp at this
        exact P.ocovB k hk0 (by omega) hks
    · -- ozero
      intro w hw
      rw [ho 0] at hw
      cases hc : BTreeMap.get chain 0 with
      | none =>
        rw [hc] at hw
        exact P.ozero w hw
      | some w2 =>
        rw [hc] at hw
        injection hw with hw
        subst hw
        -- key 0 is in the walked suffix, so the anchor is key 0 itself
        have h0s : (m.size_tree.get 0).isSome := hosub' 0 (by simp [hc])
        have hlk0 : lk = 0 := by
          have h1 := (hchiff 0).1 (by simp [hc])
          rw [hupget 0] at h1
          by_cases h2 : lk ≤ 0
          · omega
          · rw [if_neg h2] at h1; simp at h1
        have hai0 : ai = 0 := by omega
        obtain ⟨v0, hv0⟩ := Option.isSome_iff_exists.1 h0s
        have hmem0 : ((0 : Nat), v0) ∈ upd := BTreeMap.get_mem (by
          rw [hupget 0, if_pos (by omega)]
          exact hv0)
        obtain ⟨rest0, hrest0⟩ :=
          BTreeMap.sorted_eq_cons hsu hmem0 (fun p _ => Nat.zero_le _)
        have hcv : BTreeMap.get chain 0 = some ((0 - ai) * az + po) := by
          rw [hchaindef, hrest0, updChain_head, BTreeMap.get_cons_self]
        rw [hc] at hcv
        injection hcv with hcv
        have hpo0 : po = 0 := by
          rw [hpodef, hai0]
          cases hget0 : m.offset_tree.get 0 with
          | none => rfl
          | some wz =>
            have := P.ozero wz hget0
            simp [this]
        rw [hai0] at hcv
        simp at hcv
        omega
    · -- orec
      intro k1 v1 k2 hadj h1
      have hadjK := hadj
      obtain ⟨hlt, hi1, hi2, hbet⟩ := hadjK
      rw [ho k2]
      by_cases hk2 : lk ≤ k2
      · -- k2 is rewritten by the pass
        obtain ⟨v2, hv2⟩ := Option.isSome_iff_exists.1 hi2
        have hch2 : (BTreeMap.get chain k2).isSome := hchsome k2 hk2 (by simp [hv2])
        by_cases hk1 : lk ≤ k1
        · -- both rewritten: the chain recurrence
          have hadju : AdjKeys upd k1 k2 := by
            refine ⟨hlt, ?_, ?_, ?_⟩
            · rw [hupget k1, if_pos hk1]; exact hi1
            · rw [hupget k2, if_pos hk2]; exact hi2
            · intro k hk
              rw [hupget k] at hk
              by_cases h3 : lk ≤ k
              · rw [if_pos h3] at hk
                exact hbet k hk
              · rw [if_neg h3] at hk; simp at hk
          have hu1 : BTreeMap.get upd k1 = some v1 := by
            rw [hupget k1, if_pos hk1]; exact h1
          obtain ⟨w1, hw1⟩ := Option.isSome_iff_exists.1
            ((hchiff k1).2 (by simp [hu1]))
          have := updChain_adjacent hsu ai az po k1 v1 k2 w1 hadju hu1 hw1
          rw [this]
          dsimp only
          have hvoff : voff { m with
              offset_tree := (OffsetList.updLoop upd ai az po m.offset_tree m.pixel_tree).1,
              pixel_tree := (OffsetList.updLoop upd ai az po m.offset_tree m.pixel_tree).2 }
              k1 = w1 := by
            unfold voff
            simp only
            rw [ho k1, hw1]
            rfl
          rw [hvoff]
          exact congrArg some (Nat.add_comm _ _)
        · -- junction: k1 keeps its offset, k2 is the first rewritten key
          have hk1ai : k1 ≤ ai := by
            obtain ⟨w1', hw1'⟩ := Option.isSome_iff_exists.1 hi1
            have hm1 : (k1, _) ∈ m.size_tree := BTreeMap.get_mem
              (show m.size_tree.get k1 = some w1' from hw1')
            exact hgr _ hm1 (by omega)
          -- k2 is the minimum of the walked suffix
          have hk2min : ∀ p ∈ upd, k2 ≤ p.1 := by
            intro p hp
            have hpk := (hmemup p hp).2
            have hsome : (m.size_tree.get p.1).isSome :=
              BTreeMap.get_isSome_of_mem (by
                have := (hmemup p hp).1
                exact (show (p.1, p.2) ∈ m.size_tree by simpa using this))
            rcases hbet p.1 hsome with h3 | h3
            · omega
            · exact h3
          have hmem2 : (k2, v2) ∈ upd := by
            have : BTreeMap.get upd k2 = some v2 := by
              rw [hupget k2, if_pos hk2]; exact hv2
            exact BTreeMap.get_mem this
          obtain ⟨rest2, hrest2⟩ := BTreeMap.sorted_eq_cons hsu hmem2 hk2min
          have hchval : BTreeMap.get chain k2 = some ((k2 - ai) * az + po) := by
            rw [hchaindef, hrest2, updChain_head, BTreeMap.get_cons_self]
          rw [hchval]
          dsimp only
          have hvoff : voff { m with
              offset_tree := (OffsetList.updLoop upd ai az po m.offset_tree m.pixel_tree).1,
              pixel_tree := (OffsetList.updLoop upd ai az po m.offset_tree m.pixel_tree).2 }
              k1 = (m.offset_tree.get k1).getD 0 := by
            unfold voff
            simp only
            rw [ho k1, hchnone k1 (by omega)]
          rw [hvoff]
          -- either k1 is the anchor, or the anchor coincides with k2
          rcases hbet ai (by simp [haz]) with h3 | h3
          · have hk1eq : k1 = ai := by omega
            subst hk1eq
            have hveq : v1 = az := by
              rw [h1] at haz; injection haz
            rw [hveq, ← hpodef]
            exact congrArg some (Nat.add_comm _ _)
          · -- the anchor lies at or above k2: forces ai = k2 = lk
            have haieq : ai = k2 := by omega
            have horecb := P.orecB k1 v1 k2 (by omega) hadj h1
            have hpoeq : po = voff m k1 + (k2 - k1) * v1 := by
              rw [hpodef, haieq, horecb]
              rfl
            have h0 : (k2 - ai) * az = 0 := by
              have h5 : k2 - ai = 0 := by omega
              simp [h5]
            rw [h0, Nat.zero_add, hpoeq]
            unfold voff
            rfl
      · -- k2 below the pass: nothing changed
        rw [hchnone k2 (by omega)]
        dsimp only
        have hvoff : voff { m with
            offset_tree := (OffsetList.updLoop upd ai az po m.offset_tree m.pixel_tree).1,
            pixel_tree := (OffsetList.updLoop upd ai az po m.offset_tree m.pixel_tree).2 }
            k1 = voff m k1 := by
          unfold voff
          simp only
          rw [ho k1, hchnone k1 (by omega)]
        rw [hvoff]
        exact P.orecB k1 v1 k2 (by omega) hadj h1
    · -- omono
      intro k1 w1 k2 w2 hlt h1 h2
      rw [ho k1] at h1
      rw [ho k2] at h2
      cases hc1 : BTreeMap.get chain k1 with
      | some u1 =>
        rw [hc1] at h1
        injection h1 with h1
        subst h1
        cases hc2 : BTreeMap.get chain k2 with
        | some u2 =>
          rw [hc2] at h2
          injection h2 with h2
          subst h2
          exact sorted_pairwise_rel hchsorted hchpw
            (BTreeMap.get_mem hc1) (BTreeMap.get_mem hc2) hlt
        | none =>
          -- k2 keeps its old offset but k1 is rewritten: impossible
          rw [hc2] at h2
          obtain ⟨hk2ai, _⟩ := hold k2 w2 hc2 h2
          have h3 := (hchiff k1).1 (by simp [hc1])
          rw [hupget k1] at h3
          by_cases h4 : lk ≤ k1
          · omega
          · rw [if_neg h4] at h3; simp at h3
      | none =>
        rw [hc1] at h1
        cases hc2 : BTreeMap.get chain k2 with
        | some u2 =>
          rw [hc2] at h2
          injection h2 with h2
          subst h2
          obtain ⟨hk1ai, hk1po⟩ := hold k1 w1 hc1 h1
          by_cases h4 : k1 = ai
          · obtain ⟨hw1po, hailt⟩ := hk1po h4
            subst hw1po
            exact hchgt hailt _ (BTreeMap.get_mem hc2)
          · -- k1 strictly below the anchor
            have hai0 : ai ≠ 0 := by omega
            have haiS : (m.offset_tree.get ai).isSome :=
              P.ocovB ai hai0 haile (by simp [haz])
            obtain ⟨wai, hwai⟩ := Option.isSome_iff_exists.1 haiS
            have h5 : w1 < wai := P.omono k1 w1 ai wai (by omega) h1 hwai
            have h6 : po = wai := by rw [hpodef, hwai]; rfl
            have h7 := hchge _ (BTreeMap.get_mem hc2)
            simp only at h7
            omega
        | none =>
          rw [hc2] at h2
          exact P.omono k1 w1 k2 w2 hlt h1 h2
    · -- opix
      intro k w hw
      rw [ho k] at hw
      cases hc : BTreeMap.get chain k with
      | some u =>
        rw [hc] at hw
        injection hw with hw
        subst hw
        exact hpixf.1 (k, u) (BTreeMap.get_mem hc)
      | none =>
        rw [hc] at hw
        obtain ⟨hkai, hkpo⟩ := hold k w hc hw
        rw [hpixf.2 w ?_]
        · exact P.opix k w hw
        · intro q hq
          by_cases h4 : k = ai
          · obtain ⟨hwpo, hailt⟩ := hkpo h4
            subst hwpo
            have := hchgt hailt q hq
            omega
          · have hai0 : ai ≠ 0 := by omega
            have haiS : (m.offset_tree.get ai).isSome :=
              P.ocovB ai hai0 haile (by simp [haz])
            obtain ⟨wai, hwai⟩ := Option.isSome_iff_exists.1 haiS
            have h5 : w < wai := P.omono k w ai wai (by omega) hw hwai
            have h6 : po = wai := by rw [hpodef, hwai]; rfl
            have h7 := hchge q hq
            omega

theorem lastKV_mem (s z : Nat) (ns : List (Nat × Nat)) :
    lastKV s z ns ∈ (s, z) :: ns := by
  induction ns generalizing s z with
  | nil => simp [lastKV]
  | cons a ns ih =>
    obtain ⟨k1, v1⟩ := a
    rw [lastKV_cons]
    rcases List.mem_cons.1 (ih k1 v1) with h | h
    · rw [h]; simp
    · exact List.mem_cons_of_mem _ (List.mem_cons_of_mem _ h)

theorem lastKV_max {s z : Nat} {ns : List (Nat × Nat)}
    (hs : BTreeMap.Sorted ((s, z) :: ns)) :
    ∀ p ∈ (s, z) :: ns, p.1 ≤ (lastKV s z ns).1 := by
  induction ns generalizing s z with
  | nil =>
    intro p hp
    rcases List.mem_cons.1 hp with rfl | hp'
    · simp [lastKV]
    · simp at hp'
  | cons a ns ih =>
    obtain ⟨k1, v1⟩ := a
    intro p hp
    rw [lastKV_cons]
    have hsrest : BTreeMap.Sorted ((k1, v1) :: ns) := (List.pairwise_cons.1 hs).2
    rcases List.mem_cons.1 hp with h | hp'
    · have h1 := ih hsrest (k1, v1) (List.mem_cons_self _ _)
      have h2 : (s, z).1 < k1 := (List.pairwise_cons.1 hs).1 _ (List.mem_cons_self _ _)
      rw [h]
      simp only at h1 h2 ⊢
      omega
    · exact ih hsrest p hp'

theorem remT_mem_iff {e size k : Nat} {ns : List (Nat × Nat)} :
    k ∈ remT e size ns ↔ ∃ v, (k, v) ∈ ns ∧ (e ≥ k ∨ size = v) := by
  constructor
  · intro hk
    obtain ⟨p, hp, he⟩ := List.mem_map.1 hk
    have h1 := List.mem_of_mem_filter hp
    have h2 := List.of_mem_filter hp
    subst he
    exact ⟨p.2, h1, by simpa using h2⟩
  · rintro ⟨v, hv, hc⟩
    exact List.mem_map.2 ⟨(k, v), List.mem_filter.2 ⟨hv, by simpa using hc⟩, rfl⟩

/-- Unified closed form for `generalSpec`: same statement for a single
overlapping range and for several (the removal keys taken from the tail
nodes, the final re-insertion governed by the last node). -/
theorem generalSpec_spec {e z c vc : Nat} {ns : List (Nat × Nat)} {l l1 : OffsetList}
    (hpw : List.Pairwise (fun a b => a < b) (c :: ns.map Prod.fst))
    (h : generalSpec e z c vc ns l = some l1) :
    l1.size_tree =
      (if e ≥ (lastKV c vc ns).1 ∧ (lastKV c vc ns).2 ≠ z
       then (removeAll l.size_tree (remT e z ns)).insert (e + 1) (lastKV c vc ns).2
       else removeAll l.size_tree (remT e z ns)) ∧
    l1.offset_tree = removeAll l.offset_tree (remT e z ns) ∧
    (∀ w, (∀ k ∈ remT e z ns, ∀ ok, l.offset_tree.get k = some ok → w ≠ ok) →
      l1.pixel_tree.get w = l.pixel_tree.get w) ∧
    (∀ k ∈ remT e z ns, (l.offset_tree.get k).isSome) := by
  cases ns with
  | nil =>
    simp only [generalSpec] at h
    injection h with h
    subst h
    have hrt : remT e z [] = [] := rfl
    refine ⟨?_, ?_, ?_, ?_⟩
    · simp only [hrt, removeAll_nil, lastKV, List.getLastD]
      by_cases h2 : e ≥ c ∧ vc ≠ z <;> simp [h2]
    · by_cases h2 : e ≥ c ∧ vc ≠ z <;> simp [h2, hrt, removeAll_nil]
    · intro w _
      by_cases h2 : e ≥ c ∧ vc ≠ z <;> simp [h2]
    · intro k hk; simp [hrt] at hk
  | cons a rest =>
    obtain ⟨k1, v1⟩ := a
    simp only [generalSpec] at h
    obtain ⟨h1, h2, h3, h4⟩ := loopSpec_spec e z rest k1 v1 l l1
      (by simpa using (List.pairwise_cons.1 hpw).2) h
    exact ⟨by rw [h1, lastKV_cons], by rw [h2], h3, h4⟩

/-- Preservation of the adjacent-runs-differ property across the size
tree surgery of the general insert path: the state `m` is the
intermediate state (removals done, boundary and start runs inserted),
described pointwise against the previous state `l`. -/
theorem mid_adj {l m : OffsetList} {s e z c vc km vm : Nat} {K : List Nat}
    (I : InvNE l) (hse : s ≤ e) (hcle : c ≤ s - 1)
    (hcv : l.size_tree.get c = some vc)
    (hfg : ∀ p ∈ l.size_tree, p.1 ≤ s - 1 → p.1 ≤ c)
    (hkmT : l.size_tree.get km = some vm)
    (hkmle : km ≤ e + 1)
    (hkmmax : ∀ q v, l.size_tree.get q = some v → q ≤ e + 1 → q ≤ km)
    (hKf : ∀ k ∈ K, c < k ∧ k ≤ e + 1)
    (hKin : ∀ q v, l.size_tree.get q = some v → c < q → q ≤ e + 1 →
      (q ≤ e ∨ z = v) → q ∈ K)
    (hKval : ∀ k ∈ K, ∀ v, l.size_tree.get k = some v → e ≥ k ∨ z = v)
    (hT : ∀ k, m.size_tree.get k =
      if vc ≠ z ∧ k = s then some z
      else if (e ≥ km ∧ vm ≠ z) ∧ k = e + 1 then some vm
      else if k ∈ K then none
      else l.size_tree.get k) :
    ∀ k1 v1 k2 v2, AdjKeys m.size_tree k1 k2 → m.size_tree.get k1 = some v1 →
      m.size_tree.get k2 = some v2 → v1 ≠ v2 := by
  intro k1 v1 k2 v2 hadj h1 h2
  obtain ⟨hlt, _, _, hbet⟩ := hadj
  have hnob : ∀ q, k1 < q → q < k2 → (m.size_tree.get q).isSome → False := by
    intro q hq1 hq2 hqs
    rcases hbet q hqs with h | h <;> omega
  have hadjT : ∀ x vx y vy, x < y → l.size_tree.get x = some vx →
      l.size_tree.get y = some vy →
      (∀ q vq, x < q → q < y → l.size_tree.get q = some vq → False) → vx ≠ vy := by
    intro x vx y vy hxy hx hy hno
    refine I.adj x vx y vy ⟨hxy, by simp [hx], by simp [hy], ?_⟩ hx hy
    intro q hq
    obtain ⟨vq, hvq⟩ := Option.isSome_iff_exists.1 hq
    by_cases ha : q ≤ x
    · exact Or.inl ha
    by_cases hb : y ≤ q
    · exact Or.inr hb
    exact (hno q vq (by omega) (by omega) hvq).elim
  have hpresA : ∀ q vq, e + 1 < q → l.size_tree.get q = some vq →
      m.size_tree.get q = some vq := by
    intro q vq hq hget
    rw [hT q, if_neg (by rintro ⟨_, h⟩; omega),
      if_neg (by rintro ⟨_, h⟩; omega),
      if_neg (fun hK => by have := (hKf q hK).2; omega)]
    exact hget
  have hpresB : ∀ q vq, q ≤ c → q ≠ s → l.size_tree.get q = some vq →
      m.size_tree.get q = some vq := by
    intro q vq hq hqs hget
    rw [hT q, if_neg (by rintro ⟨_, h⟩; omega),
      if_neg (by rintro ⟨_, h⟩; omega),
      if_neg (fun hK => by have := (hKf q hK).1; omega)]
    exact hget
  rw [hT k1] at h1
  rw [hT k2] at h2
  by_cases hA1 : vc ≠ z ∧ k1 = s
  · rw [if_pos hA1] at h1
    injection h1 with h1
    subst h1
    obtain ⟨hvcz, hk1s⟩ := hA1
    by_cases hB2 : (e ≥ km ∧ vm ≠ z) ∧ k2 = e + 1
    · rw [if_neg (by rintro ⟨_, h⟩; omega), if_pos hB2] at h2
      injection h2 with h2
      subst h2
      exact fun hh => hB2.1.2 hh.symm
    · rw [if_neg (by rintro ⟨_, h⟩; omega), if_neg hB2] at h2
      by_cases hK2 : k2 ∈ K
      · rw [if_pos hK2] at h2; exact Option.noConfusion h2
      rw [if_neg hK2] at h2
      rcases Nat.lt_trichotomy k2 (e + 1) with hk2e | hk2e | hk2e
      · exact absurd (hKin k2 v2 h2 (by omega) (by omega) (Or.inl (by omega))) hK2
      · intro hzv
        exact hK2 (hKin k2 v2 h2 (by omega) (by omega) (Or.inr hzv))
      · have hnofire : ¬ (e ≥ km ∧ vm ≠ z) := by
          intro hfire
          have hme : m.size_tree.get (e + 1) = some vm := by
            rw [hT (e + 1), if_neg (by rintro ⟨_, h⟩; omega), if_pos ⟨hfire, rfl⟩]
          exact hnob (e + 1) (by omega) (by omega) (by simp [hme])
        have hvmz : vm = z := by
          rcases Nat.lt_or_ge km (e + 1) with hkm' | hkm'
          · by_contra hh
            exact hnofire ⟨by omega, hh⟩
          · have hkmE : km = e + 1 := by omega
            by_cases hEK : (e + 1) ∈ K
            · rcases hKval (e + 1) hEK vm (by rw [← hkmE]; exact hkmT) with hp | hp
              · omega
              · exact hp.symm
            · have hme : m.size_tree.get (e + 1) = some vm := by
                rw [hT (e + 1), if_neg (by rintro ⟨_, h⟩; omega),
                  if_neg (fun hh => hnofire hh.1), if_neg hEK]
                rw [← hkmE]; exact hkmT
              exact (hnob (e + 1) (by omega) (by omega) (by simp [hme])).elim
        have hd := hadjT km vm k2 v2 (by omega) hkmT h2 (fun q vq hq1 hq2 hgq => by
          by_cases hqe : q ≤ e + 1
          · exact absurd (hkmmax q vq hgq hqe) (by omega)
          · exact hnob q (by omega) hq2 (by simp [hpresA q vq (by omega) hgq]))
        rw [← hvmz]
        exact hd
  · rw [if_neg hA1] at h1
    by_cases hB1 : (e ≥ km ∧ vm ≠ z) ∧ k1 = e + 1
    · rw [if_pos hB1] at h1
      injection h1 with h1
      subst h1
      obtain ⟨⟨hkme, hvmne⟩, hk1e⟩ := hB1
      subst hk1e
      rw [if_neg (by rintro ⟨_, h⟩; omega), if_neg (by rintro ⟨_, h⟩; omega)] at h2
      by_cases hK2 : k2 ∈ K
      · rw [if_pos hK2] at h2; exact Option.noConfusion h2
      rw [if_neg hK2] at h2
      exact hadjT km vm k2 v2 (by omega) hkmT h2 (fun q vq hq1 hq2 hgq => by
        by_cases hqe : q ≤ e + 1
        · exact absurd (hkmmax q vq hgq hqe) (by omega)
        · exact hnob q (by omega) hq2 (by simp [hpresA q vq (by omega) hgq]))
    · rw [if_neg hB1] at h1
      by_cases hK1 : k1 ∈ K
      · rw [if_pos hK1] at h1; exact Option.noConfusion h1
      rw [if_neg hK1] at h1
      by_cases hA2 : vc ≠ z ∧ k2 = s
      · rw [if_pos hA2] at h2
        injection h2 with h2
        subst h2
        obtain ⟨hvcz, hk2s⟩ := hA2
        have hk1c : k1 ≤ c := hfg (k1, v1) (BTreeMap.get_mem h1) (by show k1 ≤ s - 1; omega)
        have hk1c' : k1 = c := by
          by_contra hne'
          have hmc : m.size_tree.get c = some vc := hpresB c vc le_rfl (by omega) hcv
          exact hnob c (by omega) (by omega) (by simp [hmc])
        have hv1 : v1 = vc := by
          rw [hk1c', hcv] at h1
          exact (Option.some.inj h1).symm
        rw [hv1]
        exact hvcz
      · by_cases hB2 : (e ≥ km ∧ vm ≠ z) ∧ k2 = e + 1
        · rw [if_neg hA2, if_pos hB2] at h2
          injection h2 with h2
          subst h2
          obtain ⟨⟨hkme, hvmne⟩, hk2e⟩ := hB2
          subst hk2e
          have hk1c : k1 ≤ c := by
            by_contra hcc
            exact hK1 (hKin k1 v1 h1 (by omega) (by omega) (Or.inl (by omega)))
          have hk1c' : k1 = c := by
            by_contra hne'
            have hmc : m.size_tree.get c = some vc := hpresB c vc le_rfl (by omega) hcv
            exact hnob c (by omega) (by omega) (by simp [hmc])
          have hvceq : vc = z := by
            by_contra hvc
            have hk1s : k1 ≠ s := fun hh => hA1 ⟨hvc, hh⟩
            have hms : m.size_tree.get s = some z := by
              rw [hT s, if_pos ⟨hvc, rfl⟩]
            exact hnob s (by omega) (by omega) (by simp [hms])
          have hv1 : v1 = vc := by
            rw [hk1c', hcv] at h1
            exact (Option.some.inj h1).symm
          rw [hv1, hvceq]
          exact fun hh => hvmne hh.symm
        · rw [if_neg hA2, if_neg hB2] at h2
          by_cases hK2 : k2 ∈ K
          · rw [if_pos hK2] at h2; exact Option.noConfusion h2
          rw [if_neg hK2] at h2
          rcases Nat.lt_or_ge c k1 with hck1 | hk1c
          · have hk1e : e + 1 ≤ k1 := by
              by_contra hh
              exact hK1 (hKin k1 v1 h1 hck1 (by omega) (Or.inl (by omega)))
            exact hadjT k1 v1 k2 v2 hlt h1 h2 (fun q vq hq1 hq2 hgq =>
              hnob q hq1 hq2 (by simp [hpresA q vq (by omega) hgq]))
          · rcases Nat.lt_or_ge c k2 with hck2 | hk2c
            · have hk1c' : k1 = c := by
                by_contra hne'
                have hmc : m.size_tree.get c = some vc := hpresB c vc le_rfl (by omega) hcv
                exact hnob c (by omega) hck2 (by simp [hmc])
              have hv1 : v1 = vc := by
                rw [hk1c', hcv] at h1
                exact (Option.some.inj h1).symm
              rcases Nat.lt_trichotomy k2 (e + 1) with hk2e | hk2e | hk2e
              · exact absurd (hKin k2 v2 h2 hck2 (by omega) (Or.inl (by omega))) hK2
              · by_cases hvc : vc = z
                · intro hv12
                  exact hK2 (hKin k2 v2 h2 hck2 (by omega)
                    (Or.inr (by rw [← hv12, hv1, hvc])))
                · have hk1s : k1 ≠ s := fun hh => hA1 ⟨hvc, hh⟩
                  have hms : m.size_tree.get s = some z := by
                    rw [hT s, if_pos ⟨hvc, rfl⟩]
                  exact (hnob s (by omega) (by omega) (by simp [hms])).elim
              · have hvceq : vc = z := by
                  by_contra hvc
                  have hk1s : k1 ≠ s := fun hh => hA1 ⟨hvc, hh⟩
                  have hms : m.size_tree.get s = some z := by
                    rw [hT s, if_pos ⟨hvc, rfl⟩]
                  exact hnob s (by omega) (by omega) (by simp [hms])
                have hnofire : ¬ (e ≥ km ∧ vm ≠ z) := by
                  intro hfire
                  have hme : m.size_tree.get (e + 1) = some vm := by
                    rw [hT (e + 1), if_neg (by rintro ⟨_, h⟩; omega), if_pos ⟨hfire, rfl⟩]
                  exact hnob (e + 1) (by omega) (by omega) (by simp [hme])
                have hvmz : vm = z := by
                  rcases Nat.lt_or_ge km (e + 1) with hkm' | hkm'
                  · by_contra hh
                    exact hnofire ⟨by omega, hh⟩
                  · have hkmE : km = e + 1 := by omega
                    by_cases hEK : (e + 1) ∈ K
                    · rcases hKval (e + 1) hEK vm (by rw [← hkmE]; exact hkmT) with hp | hp
                      · omega
                      · exact hp.symm
                    · have hme : m.size_tree.get (e + 1) = some vm := by
                        rw [hT (e + 1), if_neg (by rintro ⟨_, h⟩; omega),
                          if_neg (fun hh => hnofire hh.1), if_neg hEK]
                        rw [← hkmE]; exact hkmT
                      exact (hnob (e + 1) (by omega) (by omega) (by simp [hme])).elim
                have hd := hadjT km vm k2 v2 (by omega) hkmT h2 (fun q vq hq1 hq2 hgq => by
                  by_cases hqe : q ≤ e + 1
                  · exact absurd (hkmmax q vq hgq hqe) (by omega)
                  · exact hnob q (by omega) hq2 (by simp [hpresA q vq (by omega) hgq]))
                rw [hv1, hvceq, ← hvmz]
                exact hd
            · exact hadjT k1 v1 k2 v2 hlt h1 h2 (fun q vq hq1 hq2 hgq =>
                hnob q hq1 hq2 (by simp [hpresB q vq (by omega) (by omega) hgq]))

/-- One completed general-path `insert` on a non-empty invariant state
yields an invariant state again. -/
theorem insert_preserves {l l' : OffsetList} {s e z : Nat}
    (I : InvNE l) (hse : s ≤ e) (hM : e < LAST_RANGE_END) (hz : 0 < z)
    (h : OffsetList.insert l s e z = some l') : InvNE l' := by
  obtain ⟨v0, hv0⟩ := Option.isSome_iff_exists.1 I.szero
  have hne : ¬ l.size_tree = [] := by
    intro hE
    rw [hE] at hv0
    simp [BTreeMap.get] at hv0
  have hnz : l.size_tree.get s ≠ some 0 := by
    intro hh
    have := I.spos s 0 hh
    omega
  obtain ⟨c, vc, hfl⟩ : ∃ c vc, lte l.size_tree (s - 1) = some (c, vc) := by
    cases hfl : lte l.size_tree (s - 1) with
    | none => exact absurd hfl (lte_isSome_of_mem (BTreeMap.get_mem hv0) (Nat.zero_le _))
    | some cv => exact ⟨cv.1, cv.2, rfl⟩
  have hcv : l.size_tree.get c = some vc := lte_get I.ssorted hfl
  have hcle : c ≤ s - 1 := (lte_mem hfl).2
  have hfg : ∀ p ∈ l.size_tree, p.1 ≤ s - 1 → p.1 ≤ c := lte_greatest I.ssorted hfl
  have hce : c ≤ e + 1 := by omega
  have hRs : BTreeMap.Sorted (l.size_tree.rangeII c (e + 1)) :=
    BTreeMap.Sorted.filter I.ssorted _
  have hcR : (c, vc) ∈ l.size_tree.rangeII c (e + 1) := by
    apply @BTreeMap.get_mem _ c vc
    rw [BTreeMap.get_rangeII I.ssorted, if_pos ⟨le_rfl, hce⟩]
    exact hcv
  have hminR : ∀ p ∈ l.size_tree.rangeII c (e + 1), c ≤ p.1 := by
    intro p hp
    have h2 := List.of_mem_filter hp
    simp at h2
    exact h2.1
  obtain ⟨ns, hnodes⟩ := BTreeMap.sorted_eq_cons hRs hcR hminR
  have hpw : BTreeMap.Sorted ((c, vc) :: ns) := by rw [← hnodes]; exact hRs
  have hnsget : ∀ q v, (q, v) ∈ ns → l.size_tree.get q = some v := by
    intro q v hqv
    have hmem : (q, v) ∈ l.size_tree.rangeII c (e + 1) := by
      rw [hnodes]; exact List.mem_cons_of_mem _ hqv
    exact BTreeMap.get_of_mem I.ssorted (List.mem_of_mem_filter hmem)
  have hnslt : ∀ p ∈ ns, c < p.1 ∧ p.1 ≤ e + 1 := by
    intro p hp
    have h1 : c < p.1 := (List.pairwise_cons.1 hpw).1 p hp
    have hmem : p ∈ l.size_tree.rangeII c (e + 1) := by
      rw [hnodes]; exact List.mem_cons_of_mem _ hp
    have h2 := List.of_mem_filter hmem
    simp at h2
    exact ⟨h1, h2.2⟩
  have hub : ∀ p ∈ ns, p.1 ≤ e + 1 := fun p hp => (hnslt p hp).2
  have hnsin : ∀ q v, l.size_tree.get q = some v → c < q → q ≤ e + 1 → (q, v) ∈ ns := by
    intro q v hq h1 h2
    have hmem : (q, v) ∈ l.size_tree.rangeII c (e + 1) := by
      apply @BTreeMap.get_mem _ q v
      rw [BTreeMap.get_rangeII I.ssorted, if_pos ⟨by omega, h2⟩]
      exact hq
    rw [hnodes] at hmem
    rcases List.mem_cons.1 hmem with hEq | hm
    · have : q = c := congrArg Prod.fst hEq
      omega
    · exact hm
  rw [insert_general_eq hne hnz hM hfl hnodes hub hce] at h
  have hpwK : List.Pairwise (fun a b => a < b) (c :: ns.map Prod.fst) := by
    have h2 : List.Pairwise (fun a b : Nat => a < b) (((c, vc) :: ns).map Prod.fst) :=
      List.pairwise_map.2 hpw
    simpa using h2
  cases hg : generalSpec e z c vc ns l with
  | none => rw [hg] at h; exact Option.noConfusion h
  | some l1 =>
    rw [hg] at h
    obtain ⟨hS1, hO1, hP1, hP2⟩ := generalSpec_spec hpwK hg
    obtain ⟨km, vm, hkmEq⟩ : ∃ km vm, lastKV c vc ns = (km, vm) := ⟨_, _, rfl⟩
    rw [hkmEq] at hS1
    have hkm_mem : (km, vm) ∈ (c, vc) :: ns := by rw [← hkmEq]; exact lastKV_mem c vc ns
    have hkm_max : ∀ p ∈ (c, vc) :: ns, p.1 ≤ km := by
      intro p hp
      have h2 := lastKV_max hpw p hp
      rw [hkmEq] at h2
      exact h2
    have hkmT : l.size_tree.get km = some vm := by
      rcases List.mem_cons.1 hkm_mem with hEq | hm
      · rw [show km = c from congrArg Prod.fst hEq, show vm = vc from congrArg Prod.snd hEq]
        exact hcv
      · exact hnsget km vm hm
    have hkmge : c ≤ km := by
      have h2 := hkm_max (c, vc) (List.mem_cons_self _ _)
      simpa using h2
    have hkmle : km ≤ e + 1 := by
      rcases List.mem_cons.1 hkm_mem with hEq | hm
      · have h2 : km = c := congrArg Prod.fst hEq
        omega
      · exact (hnslt (km, vm) hm).2
    have hkmmax : ∀ q v, l.size_tree.get q = some v → q ≤ e + 1 → q ≤ km := by
      intro q v hq hqe
      by_cases hqc : q ≤ c
      · omega
      · have h2 := hkm_max (q, v) (List.mem_cons_of_mem _ (hnsin q v hq (by omega) hqe))
        simpa using h2
    have hKf : ∀ k ∈ remT e z ns, c < k ∧ k ≤ e + 1 := by
      intro k hk
      obtain ⟨v, hv, _⟩ := remT_mem_iff.1 hk
      exact hnslt (k, v) hv
    have hKge : ∀ k ∈ remT e z ns, ¬ k ≤ s - 1 := by
      intro k hk hle
      obtain ⟨v, hv, _⟩ := remT_mem_iff.1 hk
      have h1 := hnsget k v hv
      have h2 : k ≤ c := hfg (k, v) (BTreeMap.get_mem h1) hle
      have h3 : c < k := (hnslt (k, v) hv).1
      omega
    have hKin : ∀ q v, l.size_tree.get q = some v → c < q → q ≤ e + 1 →
        (q ≤ e ∨ z = v) → q ∈ remT e z ns := by
      intro q v hq h1 h2 h3
      refine remT_mem_iff.2 ⟨v, hnsin q v hq h1 h2, ?_⟩
      rcases h3 with h3 | h3
      · exact Or.inl (by omega)
      · exact Or.inr h3
    have hKval : ∀ k ∈ remT e z ns, ∀ v, l.size_tree.get k = some v → e ≥ k ∨ z = v := by
      intro k hk v hv
      obtain ⟨v', hv', hp⟩ := remT_mem_iff.1 hk
      have h2 := hnsget k v' hv'
      rw [hv] at h2
      have hveq : v = v' := Option.some.inj h2
      rcases hp with hp | hp
      · exact Or.inl hp
      · exact Or.inr (by omega)
    set m := (if vc ≠ z then { l1 with size_tree := l1.size_tree.insert s z } else l1)
      with hm
    have hmsize : m.size_tree = if vc ≠ z then l1.size_tree.insert s z else l1.size_tree := by
      rw [hm]
      by_cases hvc : vc ≠ z
      · rw [if_pos hvc, if_pos hvc]
      · rw [if_neg hvc, if_neg hvc]
    have hmo : m.offset_tree = removeAll l.offset_tree (remT e z ns) := by
      rw [hm]
      by_cases hvc : vc ≠ z
      · rw [if_pos hvc]; exact hO1
      · rw [if_neg hvc]; exact hO1
    have hmp : m.pixel_tree = l1.pixel_tree := by
      rw [hm]
      by_cases hvc : vc ≠ z
      · rw [if_pos hvc]
      · rw [if_neg hvc]
    have hmT : ∀ k, m.size_tree.get k =
        if vc ≠ z ∧ k = s then some z
        else if (e ≥ km ∧ vm ≠ z) ∧ k = e + 1 then some vm
        else if k ∈ remT e z ns then none
        else l.size_tree.get k := by
      intro k
      rw [hmsize]
      by_cases hvc : vc ≠ z
      · rw [if_pos hvc]
        by_cases hks : k = s
        · rw [hks, BTreeMap.get_insert_self, if_pos ⟨hvc, rfl⟩]
        · rw [BTreeMap.get_insert_ne l1.size_tree s z k hks,
            if_neg (fun hh => hks hh.2), hS1]
          by_cases hfire : e ≥ km ∧ vm ≠ z
          · rw [if_pos hfire]
            by_cases hke : k = e + 1
            · rw [hke, BTreeMap.get_insert_self, if_pos ⟨hfire, rfl⟩]
            · rw [BTreeMap.get_insert_ne (removeAll l.size_tree (remT e z ns)) (e + 1) vm
                k hke, get_removeAll I.ssorted,
              if_neg (show ¬ ((e ≥ km ∧ vm ≠ z) ∧ k = e + 1) from fun hh => hke hh.2)]
          · rw [if_neg hfire, get_removeAll I.ssorted,
              if_neg (show ¬ ((e ≥ km ∧ vm ≠ z) ∧ k = e + 1) from fun hh => hfire hh.1)]
      · rw [if_neg hvc, if_neg (fun hh => hvc hh.1), hS1]
        by_cases hfire : e ≥ km ∧ vm ≠ z
        · rw [if_pos hfire]
          by_cases hke : k = e + 1
          · rw [hke, BTreeMap.get_insert_self, if_pos ⟨hfire, rfl⟩]
          · rw [BTreeMap.get_insert_ne (removeAll l.size_tree (remT e z ns)) (e + 1) vm
              k hke, get_removeAll I.ssorted,
            if_neg (show ¬ ((e ≥ km ∧ vm ≠ z) ∧ k = e + 1) from fun hh => hke hh.2)]
        · rw [if_neg hfire, get_removeAll I.ssorted,
            if_neg (show ¬ ((e ≥ km ∧ vm ≠ z) ∧ k = e + 1) from fun hh => hfire hh.1)]
    have hsm : BTreeMap.Sorted m.size_tree := by
      rw [hmsize]
      have hinner : BTreeMap.Sorted l1.size_tree := by
        rw [hS1]
        by_cases hfire : e ≥ km ∧ vm ≠ z
        · rw [if_pos hfire]
          exact BTreeMap.Sorted.insert (Sorted_removeAll I.ssorted _) _ _
        · rw [if_neg hfire]
          exact Sorted_removeAll I.ssorted _
      by_cases hvc : vc ≠ z
      · rw [if_pos hvc]
        exact BTreeMap.Sorted.insert hinner _ _
      · rw [if_neg hvc]
        exact hinner
    have P : PreUpd m s := by
      refine ⟨hsm, ?_, ?_, ?_, ?_, ?_, ?_, ?_, ?_, ?_, ?_⟩
      · rw [hmo]
        exact Sorted_removeAll I.osorted _
      · intro k v hk
        rw [hmT k] at hk
        by_cases h1 : vc ≠ z ∧ k = s
        · rw [if_pos h1] at hk
          injection hk with hk
          omega
        · rw [if_neg h1] at hk
          by_cases h2 : (e ≥ km ∧ vm ≠ z) ∧ k = e + 1
          · rw [if_pos h2] at hk
            injection hk with hk
            have := I.spos km vm hkmT
            omega
          · rw [if_neg h2] at hk
            by_cases h3 : k ∈ remT e z ns
            · rw [if_pos h3] at hk
              exact Option.noConfusion hk
            · rw [if_neg h3] at hk
              exact I.spos k v hk
      · rw [hmT 0]
        by_cases h1 : vc ≠ z ∧ 0 = s
        · rw [if_pos h1]
          simp
        · rw [if_neg h1]
          by_cases h2 : (e ≥ km ∧ vm ≠ z) ∧ 0 = e + 1
          · rw [if_pos h2]
            simp
          · rw [if_neg h2,
              if_neg (show ¬ 0 ∈ remT e z ns from
                fun h3 => absurd (hKf 0 h3).1 (by omega))]
            simp [hv0]
      · exact mid_adj I hse hcle hcv hfg hkmT hkmle hkmmax hKf hKin hKval hmT
      · intro k hk
        rw [hmo, get_removeAll I.osorted] at hk
        by_cases hkK : k ∈ remT e z ns
        · rw [if_pos hkK] at hk
          simp at hk
        · rw [if_neg hkK] at hk
          have hTk := I.osub k hk
          rw [hmT k]
          by_cases h1 : vc ≠ z ∧ k = s
          · rw [if_pos h1]
            simp
          · rw [if_neg h1]
            by_cases h2 : (e ≥ km ∧ vm ≠ z) ∧ k = e + 1
            · rw [if_pos h2]
              simp
            · rw [if_neg h2, if_neg hkK]
              exact hTk
      · intro w hw
        rw [hmo, get_removeAll I.osorted,
          if_neg (fun hh => absurd (hKf 0 hh).1 (by omega))] at hw
        exact I.ozero w hw
      · intro k1 w1 k2 w2 hlt12 h1 h2
        rw [hmo, get_removeAll I.osorted] at h1 h2
        by_cases hk1 : k1 ∈ remT e z ns
        · rw [if_pos hk1] at h1
          exact Option.noConfusion h1
        rw [if_neg hk1] at h1
        by_cases hk2 : k2 ∈ remT e z ns
        · rw [if_pos hk2] at h2
          exact Option.noConfusion h2
        rw [if_neg hk2] at h2
        exact I.omono k1 w1 k2 w2 hlt12 h1 h2
      · intro k w hk
        rw [hmo, get_removeAll I.osorted] at hk
        by_cases hkK : k ∈ remT e z ns
        · rw [if_pos hkK] at hk
          exact Option.noConfusion hk
        rw [if_neg hkK] at hk
        have hcond : ∀ kk ∈ remT e z ns, ∀ ok, l.offset_tree.get kk = some ok →
            w ≠ ok := by
          intro kk hkk ok hok hwo
          rcases Nat.lt_trichotomy k kk with hc | hc | hc
          · have := I.omono k w kk ok hc hk hok
            omega
          · exact hkK (by rw [hc]; exact hkk)
          · have := I.omono kk ok k w hc hok hk
            omega
        rw [hmp, hP1 w hcond]
        exact I.opix k w hk
      · intro k hk0 hks hsome
        rw [hmT k,
          if_neg (show ¬ (vc ≠ z ∧ k = s) by rintro ⟨_, hh⟩; omega),
          if_neg (show ¬ ((e ≥ km ∧ vm ≠ z) ∧ k = e + 1) by rintro ⟨_, hh⟩; omega),
          if_neg (fun hh => hKge k hh hks)] at hsome
        have hO := I.ocov k hk0 hsome
        rw [hmo, get_removeAll I.osorted, if_neg (fun hh => hKge k hh hks)]
        exact hO
      · intro k1 v1 k2 hk2s hadj h1
        have hlt12 : k1 < k2 := hadj.1
        have hg1 : l.size_tree.get k1 = some v1 := by
          rw [hmT k1,
            if_neg (show ¬ (vc ≠ z ∧ k1 = s) by rintro ⟨_, hh⟩; omega),
            if_neg (show ¬ ((e ≥ km ∧ vm ≠ z) ∧ k1 = e + 1) by rintro ⟨_, hh⟩; omega),
            if_neg (fun hh => hKge k1 hh (by omega))] at h1
          exact h1
        obtain ⟨v2, hv2m⟩ := Option.isSome_iff_exists.1 hadj.2.2.1
        have hg2 : l.size_tree.get k2 = some v2 := by
          rw [hmT k2,
            if_neg (show ¬ (vc ≠ z ∧ k2 = s) by rintro ⟨_, hh⟩; omega),
            if_neg (show ¬ ((e ≥ km ∧ vm ≠ z) ∧ k2 = e + 1) by rintro ⟨_, hh⟩; omega),
            if_neg (fun hh => hKge k2 hh (by omega))] at hv2m
          exact hv2m
        have hadjL : AdjKeys l.size_tree k1 k2 := by
          refine ⟨hadj.1, by simp [hg1], by simp [hg2], ?_⟩
          intro q hq
          obtain ⟨vq, hvq⟩ := Option.isSome_iff_exists.1 hq
          by_cases hqa : q ≤ k1
          · exact Or.inl hqa
          by_cases hqb : k2 ≤ q
          · exact Or.inr hqb
          have hmq : m.size_tree.get q = some vq := by
            rw [hmT q,
              if_neg (by rintro ⟨_, hh⟩; omega),
              if_neg (by rintro ⟨_, hh⟩; omega),
              if_neg (fun hh => hKge q hh (by omega))]
            exact hvq
          rcases hadj.2.2.2 q (by simp [hmq]) with hh | hh
          · exact Or.inl hh
          · exact Or.inr hh
        have hrec := I.orec k1 v1 k2 hadjL hg1
        have hk1K : k1 ∉ remT e z ns := fun hh => hKge k1 hh (by omega)
        have hk2K : k2 ∉ remT e z ns := fun hh => hKge k2 hh (by omega)
        have hvoff : voff m k1 = voff l k1 := by
          unfold voff
          rw [hmo, get_removeAll I.osorted, if_neg hk1K]
        rw [hmo, get_removeAll I.osorted, if_neg hk2K, hvoff]
        exact hrec
    exact update_preserves P h

/-- The first completed `insert` (on the empty state) yields an
invariant state. -/
theorem insert_new_preserves {l' : OffsetList} {s e z : Nat} (hz : 0 < z)
    (h : OffsetList.insert OffsetList.new s e z = some l') : InvNE l' := by
  rw [insert_empty_eq OffsetList.new rfl s e z] at h
  set m : OffsetList :=
    { OffsetList.new with size_tree := OffsetList.new.size_tree.insert 0 z } with hm
  have hms : m.size_tree = [(0, z)] := rfl
  have hmo : m.offset_tree = [] := rfl
  have hget : ∀ k, m.size_tree.get k = if k = 0 then some z else none := by
    intro k
    rw [hms]
    by_cases hk : k = 0
    · rw [if_pos hk, hk]
      exact BTreeMap.get_cons_self
    · rw [if_neg hk, BTreeMap.get_cons_ne hk]
      simp [BTreeMap.get]
  have hgnone : ∀ k w, m.offset_tree.get k = some w → False := by
    intro k w hk
    rw [hmo] at hk
    simp [BTreeMap.get] at hk
  refine update_preserves ⟨?_, ?_, ?_, ?_, ?_, ?_, ?_, ?_, ?_, ?_, ?_⟩ h
  · rw [hms]
    exact List.pairwise_singleton _ _
  · rw [hmo]
    exact List.Pairwise.nil
  · intro k v hk
    rw [hget k] at hk
    by_cases h0 : k = 0
    · rw [if_pos h0] at hk
      injection hk with hk
      omega
    · rw [if_neg h0] at hk
      exact Option.noConfusion hk
  · rw [hget 0]
    simp
  · intro k1 v1 k2 v2 hadj h1 h2
    rw [hget k1] at h1
    rw [hget k2] at h2
    by_cases ha : k1 = 0
    · by_cases hb : k2 = 0
      · exact absurd hadj.1 (by omega)
      · rw [if_neg hb] at h2
        exact Option.noConfusion h2
    · rw [if_neg ha] at h1
      exact Option.noConfusion h1
  · intro k hk
    rw [hmo] at hk
    simp [BTreeMap.get] at hk
  · intro w hw
    exact (hgnone 0 w hw).elim
  · intro k1 w1 k2 w2 hlt12 h1 h2
    exact (hgnone k1 w1 h1).elim
  · intro k w hk
    exact (hgnone k w hk).elim
  · intro k hk0 hks hsome
    rw [hget k, if_neg hk0] at hsome
    simp at hsome
  · intro k1 v1 k2 hk2s hadj h1
    obtain ⟨v2, hv2⟩ := Option.isSome_iff_exists.1 hadj.2.2.1
    rw [hget k2] at hv2
    by_cases hb : k2 = 0
    · exact absurd hadj.1 (by omega)
    · rw [if_neg hb] at hv2
      exact Option.noConfusion hv2

/-- States reachable from `OffsetList::new()` by completed `insert`
calls with in-range arguments (`start ≤ end < u32::MAX`, positive
size). -/
inductive ReachableIns : OffsetList → Prop where
  | init : ReachableIns OffsetList.new
  | step {l l' : OffsetList} {s e z : Nat} : ReachableIns l → s ≤ e →
      e < LAST_RANGE_END → 0 < z → OffsetList.insert l s e z = some l' →
      ReachableIns l'

/-- Every reachable state is the fresh empty state or satisfies the
full structural invariant. -/
theorem reachable_invNE {l : OffsetList} (h : ReachableIns l) :
    l = OffsetList.new ∨ InvNE l := by
  induction h with
  | init => exact Or.inl rfl
  | step hr hse hM hz hins ih =>
    right
    rcases ih with hnew | hI
    · rw [hnew] at hins
      exact insert_new_preserves hz hins
    · exact insert_preserves hI hse hM hz hins

/-- Propagation never changes the size tree. -/
theorem update_size_eq {m l' : OffsetList} {start : Nat}
    (h : OffsetList.update_offset_tree m start = some l') :
    l'.size_tree = m.size_tree := by
  cases hfl : lte m.size_tree (start - 1) with
  | none => rw [update_none hfl] at h; exact Option.noConfusion h
  | some av =>
    obtain ⟨ai, az⟩ := av
    rw [update_eq hfl] at h
    injection h with h
    rw [← h]

theorem remove_index_size {l l1 : OffsetList} {i : Nat}
    (h : OffsetList.remove_index l i = some l1) :
    l1.size_tree = l.size_tree.remove i := by
  unfold OffsetList.remove_index at h
  cases hg : l.offset_tree.get i with
  | none => rw [hg] at h; exact Option.noConfusion h
  | some pixel =>
    rw [hg] at h
    injection h with h
    rw [← h]

/-- When the floor lookup below `start` fails, the general insert path
aborts. -/
theorem insert_general_none {l : OffsetList} {s e z : Nat}
    (hne : ¬ l.size_tree = []) (hnz : l.size_tree.get s ≠ some 0)
    (hfl : lte l.size_tree (s - 1) = none) :
    OffsetList.insert l s e z = none := by
  rw [OffsetList.insert, if_neg hne]
  have hrw : rangesWithin l.size_tree (s - 1) (e + 1) = none := by
    unfold rangesWithin
    rw [hfl]
  have hbody : (match rangesWithin l.size_tree (s - 1) (e + 1) with
      | none => none
      | some ranges =>
        match OffsetList.insLoop e z ranges false false l with
        | none => none
        | some (shouldIns, l1) =>
          OffsetList.update_offset_tree
            (if shouldIns then { l1 with size_tree := l1.size_tree.insert s z } else l1)
            s) = none := by
    rw [hrw]
  cases hg : l.size_tree.get s with
  | none => exact hbody
  | some v =>
    cases v with
    | zero => exact absurd hg hnz
    | succ v2 => exact hbody

/-- Sorted maps with equal lookups are equal. -/
theorem BTreeMap.sorted_ext : ∀ {t1 t2 : BTreeMap}, BTreeMap.Sorted t1 →
    BTreeMap.Sorted t2 → (∀ k, BTreeMap.get t1 k = BTreeMap.get t2 k) → t1 = t2 := by
  intro t1
  induction t1 with
  | nil =>
    intro t2 _ _ h
    cases t2 with
    | nil => rfl
    | cons b r2 =>
      obtain ⟨k2, v2⟩ := b
      have h2 := h k2
      rw [BTreeMap.get_cons_self] at h2
      simp [BTreeMap.get] at h2
  | cons a r1 ih =>
    intro t2 hs1 hs2 h
    obtain ⟨k1, v1⟩ := a
    cases t2 with
    | nil =>
      have h1 := h k1
      rw [BTreeMap.get_cons_self] at h1
      simp [BTreeMap.get] at h1
    | cons b r2 =>
      obtain ⟨k2, v2⟩ := b
      have m1 : (k1, v1) ∈ (k2, v2) :: r2 :=
        BTreeMap.get_mem (by rw [← h k1]; exact BTreeMap.get_cons_self)
      have m2 : (k2, v2) ∈ (k1, v1) :: r1 :=
        BTreeMap.get_mem (by rw [h k2]; exact BTreeMap.get_cons_self)
      have hkk : k1 = k2 := by
        rcases List.mem_cons.1 m1 with hh | hh
        · exact congrArg Prod.fst hh
        · rcases List.mem_cons.1 m2 with hh2 | hh2
          · exact (congrArg Prod.fst hh2).symm
          · have p1 : k2 < k1 := (List.pairwise_cons.1 hs2).1 _ hh
            have p2 : k1 < k2 := (List.pairwise_cons.1 hs1).1 _ hh2
            omega
      subst hkk
      have hvv : v1 = v2 := by
        have := h k1
        rw [BTreeMap.get_cons_self, BTreeMap.get_cons_self] at this
        exact Option.some.inj this
      subst hvv
      have hrest : r1 = r2 := by
        refine ih (List.pairwise_cons.1 hs1).2 (List.pairwise_cons.1 hs2).2 ?_
        intro k
        by_cases hk : k = k1
        · have hn1 : BTreeMap.get r1 k = none := by
            apply BTreeMap.get_eq_none_of_not_mem
            intro v hv
            have := (List.pairwise_cons.1 hs1).1 _ hv
            omega
          have hn2 : BTreeMap.get r2 k = none := by
            apply BTreeMap.get_eq_none_of_not_mem
            intro v hv
            have := (List.pairwise_cons.1 hs2).1 _ hv
            omega
          rw [hn1, hn2]
        · have := h k
          rw [BTreeMap.get_cons_ne hk, BTreeMap.get_cons_ne hk] at this
          exact this
      rw [hrest]

/-- Floor lookups agree on maps that agree at and below the query. -/
theorem lte_congr {t1 t2 : BTreeMap} (hs1 : BTreeMap.Sorted t1)
    (hs2 : BTreeMap.Sorted t2) {q : Nat}
    (h : ∀ k, k ≤ q → BTreeMap.get t1 k = BTreeMap.get t2 k) :
    lte t1 q = lte t2 q := by
  cases h1 : lte t1 q with
  | none =>
    cases h2 : lte t2 q with
    | none => rfl
    | some p =>
      obtain ⟨c, vc⟩ := p
      have hm2 := lte_mem h2
      have hg2 : t2.get c = some vc := lte_get hs2 h2
      have hg1 : t1.get c = some vc := by rw [h c hm2.2]; exact hg2
      have := lte_none_iff.1 h1 (c, vc) (BTreeMap.get_mem hg1)
      exact absurd hm2.2 (by simp at this; omega)
  | some p =>
    obtain ⟨c, vc⟩ := p
    have hm1 := lte_mem h1
    have hg1 : t1.get c = some vc := lte_get hs1 h1
    have hg2 : t2.get c = some vc := by rw [← h c hm1.2]; exact hg1
    cases h2 : lte t2 q with
    | none =>
      have := lte_none_iff.1 h2 (c, vc) (BTreeMap.get_mem hg2)
      exact absurd hm1.2 (by simp at this; omega)
    | some p2 =>
      obtain ⟨c2, v2⟩ := p2
      have hm2 := lte_mem h2
      have hg2' : t2.get c2 = some v2 := lte_get hs2 h2
      have hg1' : t1.get c2 = some v2 := by rw [h c2 hm2.2]; exact hg2'
      have hle1 : c ≤ c2 := lte_greatest hs2 h2 (c, vc) (BTreeMap.get_mem hg2) hm1.2
      have hle2 : c2 ≤ c := lte_greatest hs1 h1 (c2, v2) (BTreeMap.get_mem hg1') hm2.2
      have hcc : c = c2 := le_antisymm hle1 hle2
      subst hcc
      rw [hg2'] at hg2
      rw [Option.some.inj hg2]

/-- The placeholder-rewrite pass, pointwise: every stored 0 becomes the
new size, other values are untouched. -/
theorem get_map_zeros (t : BTreeMap) (z k : Nat) :
    BTreeMap.get (t.map (fun p => if p.2 = 0 then (p.1, z) else p)) k =
      (BTreeMap.get t k).map (fun v => if v = 0 then z else v) := by
  induction t with
  | nil => rfl
  | cons a rest ih =>
    obtain ⟨ka, va⟩ := a
    show BTreeMap.get ((if va = 0 then (ka, z) else (ka, va)) ::
      rest.map (fun p => if p.2 = 0 then (p.1, z) else p)) k = _
    by_cases hv : va = 0
    · subst hv
      rw [if_pos rfl]
      by_cases hk : k = ka
      · subst hk
        rw [BTreeMap.get_cons_self, BTreeMap.get_cons_self]
        simp
      · rw [BTreeMap.get_cons_ne hk, BTreeMap.get_cons_ne hk, ih]
    · rw [if_neg hv]
      by_cases hk : k = ka
      · subst hk
        rw [BTreeMap.get_cons_self, BTreeMap.get_cons_self]
        simp [hv]
      · rw [BTreeMap.get_cons_ne hk, BTreeMap.get_cons_ne hk, ih]

theorem sorted_map_zeros {t : BTreeMap} (hs : BTreeMap.Sorted t) (z : Nat) :
    BTreeMap.Sorted (t.map (fun p => if p.2 = 0 then (p.1, z) else p)) := by
  refine List.Pairwise.map _ ?_ hs
  intro a b hab
  by_cases ha : a.2 = 0 <;> by_cases hb : b.2 = 0 <;> simp [ha, hb] <;> exact hab

theorem rangesGo_ne_nil (s z : Nat) (L : List (Nat × Nat)) : rangesGo s z L ≠ [] := by
  cases L with
  | nil => simp [rangesGo]
  | cons a r =>
    obtain ⟨a1, a2⟩ := a
    simp [rangesGo]

theorem rangesGo_start_mem : ∀ (L : List (Nat × Nat)) (s z : Nat) (r : RangeR),
    r ∈ rangesGo s z L → r.start = s ∨ ∃ p ∈ L, r.start = p.1 := by
  intro L
  induction L with
  | nil =>
    intro s z r hr
    simp [rangesGo] at hr
    exact Or.inl (by rw [hr])
  | cons a rest ih =>
    obtain ⟨ns, nz⟩ := a
    intro s z r hr
    simp only [rangesGo] at hr
    rcases List.mem_cons.1 hr with hh | hh
    · exact Or.inl (by rw [hh])
    · rcases ih ns nz r hh with hh2 | ⟨p, hp, hps⟩
      · exact Or.inr ⟨(ns, nz), List.mem_cons_self _ _, hh2⟩
      · exact Or.inr ⟨p, List.mem_cons_of_mem _ hp, hps⟩

theorem rangesGo_tail_start : ∀ (L : List (Nat × Nat)) (s z : Nat) (r : RangeR),
    r ∈ (rangesGo s z L).tail → ∃ p ∈ L, r.start = p.1 := by
  intro L
  cases L with
  | nil =>
    intro s z r hr
    simp [rangesGo] at hr
  | cons a rest =>
    obtain ⟨ns, nz⟩ := a
    intro s z r hr
    simp only [rangesGo, List.tail_cons] at hr
    rcases rangesGo_start_mem rest ns nz r hr with hh | ⟨p, hp, hps⟩
    · exact ⟨(ns, nz), List.mem_cons_self _ _, hh⟩
    · exact ⟨p, List.mem_cons_of_mem _ hp, hps⟩

theorem rangesGo_getLast_stop : ∀ (L : List (Nat × Nat)) (s z : Nat),
    ((rangesGo s z L).getLast?).map RangeR.stop = some LAST_RANGE_END := by
  intro L
  induction L with
  | nil => intro s z; rfl
  | cons a rest ih =>
    obtain ⟨ns, nz⟩ := a
    intro s z
    obtain ⟨h0, t0, heq⟩ := List.exists_cons_of_ne_nil (rangesGo_ne_nil ns nz rest)
    show ((⟨s, ns - 1, z⟩ :: rangesGo ns nz rest : List RangeR).getLast?).map RangeR.stop =
      some LAST_RANGE_END
    rw [heq, List.getLast?_cons_cons, ← heq]
    exact ih ns nz

/-- Every run after the first one produced by `ranges_within` starts at
a key strictly above the floor key, hence above zero. -/
theorem rangesWithin_tail_pos {t : BTreeMap} (hs : BTreeMap.Sorted t) {a b : Nat}
    {ranges : List RangeR} (h : rangesWithin t a b = some ranges) :
    ∀ r ∈ List.tail ranges, 0 < r.start := by
  unfold rangesWithin at h
  cases hfl : lte t a with
  | none => rw [hfl] at h; exact Option.noConfusion h
  | some cv =>
    obtain ⟨closest, w⟩ := cv
    rw [hfl] at h
    dsimp only at h
    by_cases hbc : b < closest
    · rw [if_pos hbc] at h; exact Option.noConfusion h
    · rw [if_neg hbc] at h
      cases hr2 : t.rangeII closest b with
      | nil => rw [hr2] at h; exact Option.noConfusion h
      | cons a0 rest0 =>
        obtain ⟨s0, z0⟩ := a0
        rw [hr2] at h
        dsimp only at h
        injection h with h
        subst h
        intro r hr
        obtain ⟨p, hp, hps⟩ := rangesGo_tail_start rest0 s0 z0 r hr
        have hsR : BTreeMap.Sorted ((s0, z0) :: rest0) := by
          rw [← hr2]
          exact BTreeMap.Sorted.filter hs _
        have h5 : s0 < p.1 := (List.pairwise_cons.1 hsR).1 p hp
        omega

/-- The insert loop preserves sortedness of the size tree. -/
theorem insLoop_sorted (e z : Nat) : ∀ (ranges : List RangeR) (fd si : Bool)
    (l : OffsetList) (si' : Bool) (l' : OffsetList),
    OffsetList.insLoop e z ranges fd si l = some (si', l') →
    BTreeMap.Sorted l.size_tree → BTreeMap.Sorted l'.size_tree := by
  intro ranges
  induction ranges with
  | nil =>
    intro fd si l si' l' h hs
    simp only [OffsetList.insLoop] at h
    injection h with h
    have h2 : l = l' := congrArg Prod.snd h
    rw [← h2]
    exact hs
  | cons r rest ih =>
    intro fd si l si' l' h hs
    simp only [OffsetList.insLoop] at h
    have hl2 : ∀ l1 : OffsetList, BTreeMap.Sorted l1.size_tree →
        BTreeMap.Sorted (if r.stop > e ∧ e ≥ r.start ∧ r.size ≠ z
          then { l1 with size_tree := l1.size_tree.insert (e + 1) r.size }
          else l1).size_tree := by
      intro l1 hs1
      by_cases hc : r.stop > e ∧ e ≥ r.start ∧ r.size ≠ z
      · rw [if_pos hc]
        exact BTreeMap.Sorted.insert hs1 _ _
      · rw [if_neg hc]
        exact hs1
    by_cases hfd : fd = false
    · rw [if_pos hfd] at h
      dsimp only at h
      exact ih true _ _ si' l' h (hl2 l hs)
    · rw [if_neg hfd] at h
      by_cases hcond : e ≥ r.start ∨ z = r.size
      · rw [if_pos hcond] at h
        cases hrem : OffsetList.remove_index l r.start with
        | none => rw [hrem] at h; exact Option.noConfusion h
        | some l1 =>
          rw [hrem] at h
          dsimp only at h
          refine ih true si _ si' l' h (hl2 l1 ?_)
          rw [remove_index_size hrem]
          exact BTreeMap.Sorted.remove hs _
      · rw [if_neg hcond] at h
        dsimp only at h
        exact ih true si _ si' l' h (hl2 l hs)

/-- The insert loop never touches key 0 of the size tree when all
removable range starts are positive. -/
theorem insLoop_zero (e z : Nat) : ∀ (ranges : List RangeR) (fd si : Bool)
    (l : OffsetList) (si' : Bool) (l' : OffsetList),
    OffsetList.insLoop e z ranges fd si l = some (si', l') →
    (l.size_tree.get 0).isSome →
    (∀ r ∈ ranges, fd = true → 0 < r.start) →
    (∀ r ∈ List.tail ranges, 0 < r.start) →
    (l'.size_tree.get 0).isSome := by
  intro ranges
  induction ranges with
  | nil =>
    intro fd si l si' l' h h0 _ _
    simp only [OffsetList.insLoop] at h
    injection h with h
    have h2 : l = l' := congrArg Prod.snd h
    rw [← h2]
    exact h0
  | cons r rest ih =>
    intro fd si l si' l' h h0 hhead htail
    simp only [OffsetList.insLoop] at h
    have hrest1 : ∀ r2 ∈ rest, (true : Bool) = true → 0 < r2.start := by
      intro r2 hr2 _
      exact htail r2 (by simpa using hr2)
    have hrest2 : ∀ r2 ∈ List.tail rest, 0 < r2.start := by
      intro r2 hr2
      exact hrest1 r2 (List.mem_of_mem_tail hr2) rfl
    have hl2 : ∀ l1 : OffsetList, (l1.size_tree.get 0).isSome →
        ((if r.stop > e ∧ e ≥ r.start ∧ r.size ≠ z
          then { l1 with size_tree := l1.size_tree.insert (e + 1) r.size }
          else l1).size_tree.get 0).isSome := by
      intro l1 h1
      by_cases hc : r.stop > e ∧ e ≥ r.start ∧ r.size ≠ z
      · rw [if_pos hc]
        show ((l1.size_tree.insert (e + 1) r.size).get 0).isSome
        rw [BTreeMap.get_insert_ne _ _ _ _ (by omega)]
        exact h1
      · rw [if_neg hc]
        exact h1
    by_cases hfd : fd = false
    · rw [if_pos hfd] at h
      dsimp only at h
      exact ih true _ _ si' l' h (hl2 l h0) hrest1 hrest2
    · rw [if_neg hfd] at h
      by_cases hcond : e ≥ r.start ∨ z = r.size
      · rw [if_pos hcond] at h
        cases hrem : OffsetList.remove_index l r.start with
        | none => rw [hrem] at h; exact Option.noConfusion h
        | some l1 =>
          rw [hrem] at h
          dsimp only at h
          have hrpos : 0 < r.start := by
            refine hhead r (List.mem_cons_self _ _) ?_
            cases fd with
            | false => exact absurd rfl hfd
            | true => rfl
          have h01 : (l1.size_tree.get 0).isSome := by
            rw [remove_index_size hrem]
            show ((l.size_tree.remove r.start).get 0).isSome
            rw [BTreeMap.get_remove_ne _ _ _ (by omega)]
            exact h0
          exact ih true si _ si' l' h (hl2 l1 h01) hrest1 hrest2
      · rw [if_neg hcond] at h
        dsimp only at h
        exact ih true si _ si' l' h (hl2 l h0) hrest1 hrest2

/-- Any completed `insert`, with arbitrary arguments, keeps the size
tree sorted and keeps key 0 present. -/
theorem insert_preserves_basic {l l' : OffsetList} {s e z : Nat}
    (h : OffsetList.insert l s e z = some l')
    (hs : BTreeMap.Sorted l.size_tree)
    (h0 : l.size_tree = [] ∨ (l.size_tree.get 0).isSome) :
    BTreeMap.Sorted l'.size_tree ∧ (l'.size_tree.get 0).isSome := by
  by_cases hE : l.size_tree = []
  · rw [OffsetList.insert, if_pos hE] at h
    have hsz : l'.size_tree = l.size_tree.insert 0 z := update_size_eq h
    rw [hsz, hE]
    exact ⟨List.pairwise_singleton _ _, by simp [BTreeMap.get_insert_self]⟩
  · rcases h0 with h0 | h0
    · exact absurd h0 hE
    rw [OffsetList.insert, if_neg hE] at h
    have hgen : ∀ (hb : (match rangesWithin l.size_tree (s - 1) (e + 1) with
        | none => none
        | some ranges =>
          match OffsetList.insLoop e z ranges false false l with
          | none => none
          | some (shouldIns, l1) =>
            OffsetList.update_offset_tree
              (if shouldIns then { l1 with size_tree := l1.size_tree.insert s z }
               else l1) s) = some l'),
        BTreeMap.Sorted l'.size_tree ∧ (l'.size_tree.get 0).isSome := by
      intro hb
      cases hrw : rangesWithin l.size_tree (s - 1) (e + 1) with
      | none => rw [hrw] at hb; exact Option.noConfusion hb
      | some ranges =>
        rw [hrw] at hb
        dsimp only at hb
        cases hil : OffsetList.insLoop e z ranges false false l with
        | none => rw [hil] at hb; exact Option.noConfusion hb
        | some p =>
          obtain ⟨si, l1⟩ := p
          rw [hil] at hb
          dsimp only at hb
          have hs1 : BTreeMap.Sorted l1.size_tree :=
            insLoop_sorted e z ranges false false l si l1 hil hs
          have h01 : (l1.size_tree.get 0).isSome := by
            refine insLoop_zero e z ranges false false l si l1 hil h0 ?_
              (rangesWithin_tail_pos hs hrw)
            intro r _ hft
            exact absurd hft (by simp)
          have hsz := update_size_eq hb
          cases si with
          | false =>
            rw [if_neg (by simp)] at hsz
            rw [hsz]
            exact ⟨hs1, h01⟩
          | true =>
            rw [if_pos rfl] at hsz
            have hsz2 : l'.size_tree = l1.size_tree.insert s z := hsz
            rw [hsz2]
            refine ⟨BTreeMap.Sorted.insert hs1 _ _, ?_⟩
            by_cases hsz0 : s = 0
            · rw [← hsz0, BTreeMap.get_insert_self]
              rfl
            · rw [BTreeMap.get_insert_ne _ _ _ _ (fun hh => hsz0 hh.symm)]
              exact h01
    cases hgs : l.size_tree.get s with
    | none =>
      rw [hgs] at h
      exact hgen h
    | some v =>
      cases v with
      | succ v2 =>
        rw [hgs] at h
        exact hgen h
      | zero =>
        rw [hgs] at h
        dsimp only at h
        by_cases hs0 : s = 0
        · rw [if_pos hs0] at h
          exact Option.noConfusion h
        · rw [if_neg hs0] at h
          cases hgp : l.size_tree.get (s - 1) with
          | none =>
            rw [hgp] at h
            exact Option.noConfusion h
          | some g =>
            rw [hgp] at h
            dsimp only at h
            by_cases hgz : g = z
            · rw [if_pos hgz] at h
              injection h with h
              rw [← h]
              exact ⟨List.pairwise_singleton _ _, by simp [BTreeMap.get_cons_self]⟩
            · rw [if_neg hgz] at h
              have hsz : l'.size_tree =
                  l.size_tree.map (fun p => if p.2 = 0 then (p.1, z) else p) :=
                update_size_eq h
              rw [hsz]
              refine ⟨sorted_map_zeros hs z, ?_⟩
              rw [get_map_zeros]
              obtain ⟨v0, hv0⟩ := Option.isSome_iff_exists.1 h0
              rw [hv0]
              rfl

theorem spots_fold_sorted (z : Nat) : ∀ (spots : List Nat) (t : BTreeMap),
    BTreeMap.Sorted t →
    BTreeMap.Sorted (spots.foldl
      (fun t spot => (BTreeMap.insert t spot z).insert (spot + 1) 0) t) := by
  intro spots
  induction spots with
  | nil => intro t ht; exact ht
  | cons s0 rest ih =>
    intro t ht
    exact ih _ (BTreeMap.Sorted.insert (BTreeMap.Sorted.insert ht _ _) _ _)

/-- A completed `insert_spots` keeps the size tree sorted and installs
key 0. -/
theorem insert_spots_basic {l l' : OffsetList} {spots : List Nat} {z : Nat}
    (h : OffsetList.insert_spots l spots z = some l') :
    BTreeMap.Sorted l'.size_tree ∧ (l'.size_tree.get 0).isSome := by
  unfold OffsetList.insert_spots at h
  by_cases hE : l.size_tree = []
  · rw [if_pos hE] at h
    by_cases hA : (spots.all (fun spot => decide (spot < LAST_RANGE_END))) = true
    · rw [if_pos hA] at h
      dsimp only at h
      have hsz : l'.size_tree = spots.foldl
          (fun t spot => (BTreeMap.insert t spot z).insert (spot + 1) 0) l.size_tree :=
        update_size_eq h
      constructor
      · rw [hsz]
        exact spots_fold_sorted z spots l.size_tree (by rw [hE]; exact List.Pairwise.nil)
      · cases hfl : lte (spots.foldl
            (fun t spot => (BTreeMap.insert t spot z).insert (spot + 1) 0) l.size_tree)
            (0 - 1) with
        | none => rw [update_none hfl] at h; exact Option.noConfusion h
        | some cv =>
          obtain ⟨c, vc⟩ := cv
          have hm := lte_mem hfl
          have hc0 : c = 0 := by omega
          rw [hsz]
          exact BTreeMap.get_isSome_of_mem (hc0 ▸ hm.1)
    · rw [if_neg hA] at h
      exact Option.noConfusion h
  · rw [if_neg hE] at h
    exact Option.noConfusion h

/-- States reachable from `OffsetList::new()` by completed mutations of
any kind (`insert` with arbitrary arguments, `insert_spots`). -/
inductive ReachableAny : OffsetList → Prop where
  | init : ReachableAny OffsetList.new
  | step {l l' : OffsetList} (s e z : Nat) : ReachableAny l →
      OffsetList.insert l s e z = some l' → ReachableAny l'
  | spots {l l' : OffsetList} (spots : List Nat) (z : Nat) : ReachableAny l →
      OffsetList.insert_spots l spots z = some l' → ReachableAny l'

theorem reachableAny_zero {l : OffsetList} (h : ReachableAny l) :
    l = OffsetList.new ∨
      (BTreeMap.Sorted l.size_tree ∧ (l.size_tree.get 0).isSome) := by
  induction h with
  | init => exact Or.inl rfl
  | step s e z hr hins ih =>
    right
    rcases ih with hnew | ⟨hs, h0⟩
    · rw [hnew] at hins
      exact insert_preserves_basic hins List.Pairwise.nil (Or.inl rfl)
    · exact insert_preserves_basic hins hs (Or.inr h0)
  | spots sp z hr hins ih =>
    exact Or.inr (insert_spots_basic hins)

/-- Pointwise characterization of the size tree produced by a completed
general-path insert: the new run at `start` (when the floor's size
differs), the re-inserted boundary run at `end + 1` (when the last
walked run extends past `end` with a different size), the removed
walked runs, and everything else untouched. -/
theorem insert_size_char {l l1 : OffsetList} {s e z : Nat}
    (hs : BTreeMap.Sorted l.size_tree)
    (hnz : l.size_tree.get s ≠ some 0)
    (hne : ¬ l.size_tree = [])
    (hse : s ≤ e) (hM : e < LAST_RANGE_END)
    (h : OffsetList.insert l s e z = some l1) :
    ∃ (c : Nat) (vc : Nat) (km : Nat) (vm : Nat) (K : List Nat),
      lte l.size_tree (s - 1) = some (c, vc) ∧
      c ≤ s - 1 ∧
      (∀ p ∈ l.size_tree, p.1 ≤ s - 1 → p.1 ≤ c) ∧
      l.size_tree.get c = some vc ∧
      l.size_tree.get km = some vm ∧
      km ≤ e + 1 ∧
      (∀ k ∈ K, c < k ∧ k ≤ e + 1) ∧
      (∀ k ∈ K, ¬ k ≤ s - 1) ∧
      (∀ q v, l.size_tree.get q = some v → c < q → q ≤ e + 1 →
        (q ≤ e ∨ z = v) → q ∈ K) ∧
      BTreeMap.Sorted l1.size_tree ∧
      (∀ k, l1.size_tree.get k =
        if vc ≠ z ∧ k = s then some z
        else if (e ≥ km ∧ vm ≠ z) ∧ k = e + 1 then some vm
        else if k ∈ K then none
        else l.size_tree.get k) := by
  obtain ⟨c, vc, hfl⟩ : ∃ c vc, lte l.size_tree (s - 1) = some (c, vc) := by
    cases hfl : lte l.size_tree (s - 1) with
    | none => exact absurd h (by rw [insert_general_none hne hnz hfl]; simp)
    | some cv => exact ⟨cv.1, cv.2, rfl⟩
  have hcv : l.size_tree.get c = some vc := lte_get hs hfl
  have hcle : c ≤ s - 1 := (lte_mem hfl).2
  have hfg : ∀ p ∈ l.size_tree, p.1 ≤ s - 1 → p.1 ≤ c := lte_greatest hs hfl
  have hce : c ≤ e + 1 := by omega
  have hRs : BTreeMap.Sorted (l.size_tree.rangeII c (e + 1)) :=
    BTreeMap.Sorted.filter hs _
  have hcR : (c, vc) ∈ l.size_tree.rangeII c (e + 1) := by
    apply @BTreeMap.get_mem _ c vc
    rw [BTreeMap.get_rangeII hs, if_pos ⟨le_rfl, hce⟩]
    exact hcv
  have hminR : ∀ p ∈ l.size_tree.rangeII c (e + 1), c ≤ p.1 := by
    intro p hp
    have h2 := List.of_mem_filter hp
    simp at h2
    exact h2.1
  obtain ⟨ns, hnodes⟩ := BTreeMap.sorted_eq_cons hRs hcR hminR
  have hpw : BTreeMap.Sorted ((c, vc) :: ns) := by rw [← hnodes]; exact hRs
  have hnsget : ∀ q v, (q, v) ∈ ns → l.size_tree.get q = some v := by
    intro q v hqv
    have hmem : (q, v) ∈ l.size_tree.rangeII c (e + 1) := by
      rw [hnodes]; exact List.mem_cons_of_mem _ hqv
    exact BTreeMap.get_of_mem hs (List.mem_of_mem_filter hmem)
  have hnslt : ∀ p ∈ ns, c < p.1 ∧ p.1 ≤ e + 1 := by
    intro p hp
    have h1 : c < p.1 := (List.pairwise_cons.1 hpw).1 p hp
    have hmem : p ∈ l.size_tree.rangeII c (e + 1) := by
      rw [hnodes]; exact List.mem_cons_of_mem _ hp
    have h2 := List.of_mem_filter hmem
    simp at h2
    exact ⟨h1, h2.2⟩
  have hub : ∀ p ∈ ns, p.1 ≤ e + 1 := fun p hp => (hnslt p hp).2
  have hnsin : ∀ q v, l.size_tree.get q = some v → c < q → q ≤ e + 1 → (q, v) ∈ ns := by
    intro q v hq h1 h2
    have hmem : (q, v) ∈ l.size_tree.rangeII c (e + 1) := by
      apply @BTreeMap.get_mem _ q v
      rw [BTreeMap.get_rangeII hs, if_pos ⟨by omega, h2⟩]
      exact hq
    rw [hnodes] at hmem
    rcases List.mem_cons.1 hmem with hEq | hm
    · have : q = c := congrArg Prod.fst hEq
      omega
    · exact hm
  rw [insert_general_eq hne hnz hM hfl hnodes hub hce] at h
  have hpwK : List.Pairwise (fun a b => a < b) (c :: ns.map Prod.fst) := by
    have h2 : List.Pairwise (fun a b : Nat => a < b) (((c, vc) :: ns).map Prod.fst) :=
      List.pairwise_map.2 hpw
    simpa using h2
  cases hg : generalSpec e z c vc ns l with
  | none => rw [hg] at h; exact Option.noConfusion h
  | some lmid =>
    rw [hg] at h
    obtain ⟨hS1, _, _, _⟩ := generalSpec_spec hpwK hg
    obtain ⟨km, vm, hkmEq⟩ : ∃ km vm, lastKV c vc ns = (km, vm) := ⟨_, _, rfl⟩
    rw [hkmEq] at hS1
    have hkm_mem : (km, vm) ∈ (c, vc) :: ns := by rw [← hkmEq]; exact lastKV_mem c vc ns
    have hkmT : l.size_tree.get km = some vm := by
      rcases List.mem_cons.1 hkm_mem with hEq | hm
      · rw [show km = c from congrArg Prod.fst hEq,
          show vm = vc from congrArg Prod.snd hEq]
        exact hcv
      · exact hnsget km vm hm
    have hkmle : km ≤ e + 1 := by
      rcases List.mem_cons.1 hkm_mem with hEq | hm
      · have h2 : km = c := congrArg Prod.fst hEq
        omega
      · exact (hnslt (km, vm) hm).2
    have hKf : ∀ k ∈ remT e z ns, c < k ∧ k ≤ e + 1 := by
      intro k hk
      obtain ⟨v, hv, _⟩ := remT_mem_iff.1 hk
      exact hnslt (k, v) hv
    have hKge : ∀ k ∈ remT e z ns, ¬ k ≤ s - 1 := by
      intro k hk hle
      obtain ⟨v, hv, _⟩ := remT_mem_iff.1 hk
      have h1 := hnsget k v hv
      have h2 : k ≤ c := hfg (k, v) (BTreeMap.get_mem h1) hle
      have h3 : c < k := (hnslt (k, v) hv).1
      omega
    have hKin : ∀ q v, l.size_tree.get q = some v → c < q → q ≤ e + 1 →
        (q ≤ e ∨ z = v) → q ∈ remT e z ns := by
      intro q v hq h1 h2 h3
      refine remT_mem_iff.2 ⟨v, hnsin q v hq h1 h2, ?_⟩
      rcases h3 with h3 | h3
      · exact Or.inl (by omega)
      · exact Or.inr h3
    have hl1sz : l1.size_tree =
        (if vc ≠ z
         then { lmid with size_tree := lmid.size_tree.insert s z }
         else lmid).size_tree := update_size_eq h
    have hmsize : l1.size_tree =
        if vc ≠ z then lmid.size_tree.insert s z else lmid.size_tree := by
      rw [hl1sz]
      by_cases hvc : vc ≠ z
      · rw [if_pos hvc, if_pos hvc]
      · rw [if_neg hvc, if_neg hvc]
    refine ⟨c, vc, km, vm, remT e z ns, hfl, hcle, hfg, hcv, hkmT, hkmle, hKf, hKge,
      hKin, ?_, ?_⟩
    · rw [hmsize]
      have hinner : BTreeMap.Sorted lmid.size_tree := by
        rw [hS1]
        by_cases hfire : e ≥ km ∧ vm ≠ z
        · rw [if_pos hfire]
          exact BTreeMap.Sorted.insert (Sorted_removeAll hs _) _ _
        · rw [if_neg hfire]
          exact Sorted_removeAll hs _
      by_cases hvc : vc ≠ z
      · rw [if_pos hvc]
        exact BTreeMap.Sorted.insert hinner _ _
      · rw [if_neg hvc]
        exact hinner
    · intro k
      rw [hmsize]
      by_cases hvc : vc ≠ z
      · rw [if_pos hvc]
        by_cases hks : k = s
        · rw [hks, BTreeMap.get_insert_self, if_pos ⟨hvc, rfl⟩]
        · rw [BTreeMap.get_insert_ne lmid.size_tree s z k hks,
            if_neg (fun hh => hks hh.2), hS1]
          by_cases hfire : e ≥ km ∧ vm ≠ z
          · rw [if_pos hfire]
            by_cases hke : k = e + 1
            · rw [hke, BTreeMap.get_insert_self, if_pos ⟨hfire, rfl⟩]
            · rw [BTreeMap.get_insert_ne (removeAll l.size_tree (remT e z ns)) (e + 1)
                vm k hke, get_removeAll hs,
                if_neg (show ¬ ((e ≥ km ∧ vm ≠ z) ∧ k = e + 1) from fun hh => hke hh.2)]
          · rw [if_neg hfire, get_removeAll hs,
              if_neg (show ¬ ((e ≥ km ∧ vm ≠ z) ∧ k = e + 1) from fun hh => hfire hh.1)]
      · rw [if_neg hvc, if_neg (fun hh => hvc hh.1), hS1]
        by_cases hfire : e ≥ km ∧ vm ≠ z
        · rw [if_pos hfire]
          by_cases hke : k = e + 1
          · rw [hke, BTreeMap.get_insert_self, if_pos ⟨hfire, rfl⟩]
          · rw [BTreeMap.get_insert_ne (removeAll l.size_tree (remT e z ns)) (e + 1)
              vm k hke, get_removeAll hs,
              if_neg (show ¬ ((e ≥ km ∧ vm ≠ z) ∧ k = e + 1) from fun hh => hke hh.2)]
        · rw [if_neg hfire, get_removeAll hs,
            if_neg (show ¬ ((e ≥ km ∧ vm ≠ z) ∧ k = e + 1) from fun hh => hfire hh.1)]

/-- A second insert of the same interval is a no-op on the size tree,
provided the state already looks like the result of that insert: the
only runs in the window past the floor are the run at `start` carrying
the new size (present exactly when the floor's size differs) and a
differently-sized boundary run at `end + 1`. -/
theorem insert_noop {l1 l2 : OffsetList} {s e z c vc : Nat}
    (hs : BTreeMap.Sorted l1.size_tree)
    (hse : s ≤ e) (hM : e < LAST_RANGE_END)
    (hnz : l1.size_tree.get s ≠ some 0)
    (hfl : lte l1.size_tree (s - 1) = some (c, vc))
    (hwin : ∀ q v, l1.size_tree.get q = some v → c < q → q ≤ e + 1 →
      (q = s ∧ v = z ∧ vc ≠ z) ∨ (q = e + 1 ∧ v ≠ z))
    (hvc : vc ≠ z → l1.size_tree.get s = some z)
    (h2 : OffsetList.insert l1 s e z = some l2) :
    l2.size_tree = l1.size_tree := by
  have hcv : l1.size_tree.get c = some vc := lte_get hs hfl
  have hcle : c ≤ s - 1 := (lte_mem hfl).2
  have hce : c ≤ e + 1 := by omega
  have hne : ¬ l1.size_tree = [] := by
    intro hE
    rw [hE] at hcv
    simp [BTreeMap.get] at hcv
  have hRs : BTreeMap.Sorted (l1.size_tree.rangeII c (e + 1)) :=
    BTreeMap.Sorted.filter hs _
  have hcR : (c, vc) ∈ l1.size_tree.rangeII c (e + 1) := by
    apply @BTreeMap.get_mem _ c vc
    rw [BTreeMap.get_rangeII hs, if_pos ⟨le_rfl, hce⟩]
    exact hcv
  have hminR : ∀ p ∈ l1.size_tree.rangeII c (e + 1), c ≤ p.1 := by
    intro p hp
    have h3 := List.of_mem_filter hp
    simp at h3
    exact h3.1
  obtain ⟨ns, hnodes⟩ := BTreeMap.sorted_eq_cons hRs hcR hminR
  have hpw : BTreeMap.Sorted ((c, vc) :: ns) := by rw [← hnodes]; exact hRs
  have hnsget : ∀ q v, (q, v) ∈ ns → l1.size_tree.get q = some v := by
    intro q v hqv
    have hmem : (q, v) ∈ l1.size_tree.rangeII c (e + 1) := by
      rw [hnodes]; exact List.mem_cons_of_mem _ hqv
    exact BTreeMap.get_of_mem hs (List.mem_of_mem_filter hmem)
  have hnslt : ∀ p ∈ ns, c < p.1 ∧ p.1 ≤ e + 1 := by
    intro p hp
    have h1 : c < p.1 := (List.pairwise_cons.1 hpw).1 p hp
    have hmem : p ∈ l1.size_tree.rangeII c (e + 1) := by
      rw [hnodes]; exact List.mem_cons_of_mem _ hp
    have h3 := List.of_mem_filter hmem
    simp at h3
    exact ⟨h1, h3.2⟩
  have hub : ∀ p ∈ ns, p.1 ≤ e + 1 := fun p hp => (hnslt p hp).2
  have hnsin : ∀ q v, l1.size_tree.get q = some v → c < q → q ≤ e + 1 → (q, v) ∈ ns := by
    intro q v hq h1 h3
    have hmem : (q, v) ∈ l1.size_tree.rangeII c (e + 1) := by
      apply @BTreeMap.get_mem _ q v
      rw [BTreeMap.get_rangeII hs, if_pos ⟨by omega, h3⟩]
      exact hq
    rw [hnodes] at hmem
    rcases List.mem_cons.1 hmem with hEq | hm
    · have : q = c := congrArg Prod.fst hEq
      omega
    · exact hm
  have hclass : ∀ p ∈ ns, (p.1 = s ∧ p.2 = z ∧ vc ≠ z) ∨ (p.1 = e + 1 ∧ p.2 ≠ z) := by
    intro p hp
    exact hwin p.1 p.2 (hnsget p.1 p.2 hp) (hnslt p hp).1 (hnslt p hp).2
  have hcs : vc ≠ z → c < s := by
    intro hvcz
    by_contra hh
    push_neg at hh
    have hcsE : c = s := by omega
    have h3 := hvc hvcz
    rw [← hcsE, hcv] at h3
    exact hvcz (Option.some.inj h3)
  have hsmem : vc ≠ z → (s, z) ∈ ns := fun hvcz =>
    hnsin s z (hvc hvcz) (hcs hvcz) (by omega)
  have hK2 : ∀ k, k ∈ remT e z ns ↔ (k = s ∧ vc ≠ z) := by
    intro k
    constructor
    · intro hk
      obtain ⟨v, hv, hpred⟩ := remT_mem_iff.1 hk
      rcases hclass (k, v) hv with ⟨h1, _, h3⟩ | ⟨h1, h3⟩
      · exact ⟨h1, h3⟩
      · rcases hpred with hp | hp
        · omega
        · exact absurd hp.symm h3
    · rintro ⟨rfl, hvcz⟩
      exact remT_mem_iff.2 ⟨z, hsmem hvcz, Or.inl (by omega)⟩
  rw [insert_general_eq hne hnz hM hfl hnodes hub hce] at h2
  have hpwK : List.Pairwise (fun a b => a < b) (c :: ns.map Prod.fst) := by
    have h3 : List.Pairwise (fun a b : Nat => a < b) (((c, vc) :: ns).map Prod.fst) :=
      List.pairwise_map.2 hpw
    simpa using h3
  cases hg : generalSpec e z c vc ns l1 with
  | none => rw [hg] at h2; exact Option.noConfusion h2
  | some lmid =>
    rw [hg] at h2
    obtain ⟨hS1, _, _, _⟩ := generalSpec_spec hpwK hg
    obtain ⟨km, vm, hkmEq⟩ : ∃ km vm, lastKV c vc ns = (km, vm) := ⟨_, _, rfl⟩
    rw [hkmEq] at hS1
    have hfire2 : ¬ (e ≥ km ∧ vm ≠ z) := by
      rintro ⟨hkme, hvmz⟩
      cases hnsE : ns with
      | nil =>
        have : lastKV c vc ns = (c, vc) := by rw [hnsE]; rfl
        rw [hkmEq] at this
        have hkc : km = c := congrArg Prod.fst this
        have hvv : vm = vc := congrArg Prod.snd this
        have hvcz : vc ≠ z := by rw [← hvv]; exact hvmz
        have := hsmem hvcz
        rw [hnsE] at this
        simp at this
      | cons a tl =>
        have hmem : (km, vm) ∈ ns := by
          rw [hnsE, ← hkmEq]
          obtain ⟨a1, a2⟩ := a
          rw [hnsE, lastKV_cons]
          exact lastKV_mem a1 a2 tl
        rcases hclass (km, vm) hmem with ⟨_, h3, _⟩ | ⟨h1, _⟩
        · exact hvmz h3
        · simp only at h1
          omega
    rw [if_neg hfire2] at hS1
    have hl2sz : l2.size_tree =
        (if vc ≠ z
         then { lmid with size_tree := lmid.size_tree.insert s z }
         else lmid).size_tree := update_size_eq h2
    by_cases hvcz : vc ≠ z
    · have hsz : l2.size_tree = (removeAll l1.size_tree (remT e z ns)).insert s z := by
        rw [hl2sz, if_pos hvcz]
        show lmid.size_tree.insert s z = _
        rw [hS1]
      have hsorted2 : BTreeMap.Sorted l2.size_tree := by
        rw [hsz]
        exact BTreeMap.Sorted.insert (Sorted_removeAll hs _) _ _
      refine BTreeMap.sorted_ext hsorted2 hs ?_
      intro k
      rw [hsz]
      by_cases hks : k = s
      · rw [hks, BTreeMap.get_insert_self, hvc hvcz]
      · rw [BTreeMap.get_insert_ne _ _ _ _ hks, get_removeAll hs,
          if_neg (fun hh => hks ((hK2 k).1 hh).1)]
    · have hsz : l2.size_tree = removeAll l1.size_tree (remT e z ns) := by
        rw [hl2sz, if_neg hvcz]
        rw [hS1]
      have hsorted2 : BTreeMap.Sorted l2.size_tree := by
        rw [hsz]
        exact Sorted_removeAll hs _
      refine BTreeMap.sorted_ext hsorted2 hs ?_
      intro k
      rw [hsz, get_removeAll hs, if_neg (fun hh => hvcz ((hK2 k).1 hh).2)]

/-- Inserting the same interval twice changes the size tree only once:
on a sorted, placeholder-free prior state, with a positive size and an
ordered in-range interval, the second completed call is a no-op. -/
theorem insert_twice_size_eq {l l1 l2 : OffsetList} {s e z : Nat}
    (hs : BTreeMap.Sorted l.size_tree)
    (hzf : ∀ k v, l.size_tree.get k = some v → 0 < v)
    (hz : 0 < z) (hse : s ≤ e) (hM : e < LAST_RANGE_END)
    (h1 : OffsetList.insert l s e z = some l1)
    (h2 : OffsetList.insert l1 s e z = some l2) :
    l2.size_tree = l1.size_tree := by
  by_cases hE : l.size_tree = []
  · rw [OffsetList.insert, if_pos hE] at h1
    have hsz : l1.size_tree = l.size_tree.insert 0 z := update_size_eq h1
    rw [hE] at hsz
    have hsz2 : l1.size_tree = [(0, z)] := hsz
    have hg0 : l1.size_tree.get 0 = some z := by
      rw [hsz2]
      exact BTreeMap.get_cons_self
    refine @insert_noop l1 l2 s e z 0 z ?_ hse hM ?_ ?_ ?_ ?_ h2
    · rw [hsz2]
      exact List.pairwise_singleton _ _
    · rw [hsz2]
      by_cases hs0 : s = 0
      · rw [hs0, BTreeMap.get_cons_self]
        intro hh
        have := Option.some.inj hh
        omega
      · rw [BTreeMap.get_cons_ne hs0]
        simp [BTreeMap.get]
    · rw [hsz2]
      simp [lte, BTreeMap.rangeTo]
    · intro q v hq hq0 hqe
      rw [hsz2, BTreeMap.get_cons_ne (show q ≠ 0 by omega)] at hq
      simp [BTreeMap.get] at hq
    · intro hh
      exact absurd rfl hh
  · have hnz1 : l.size_tree.get s ≠ some 0 := by
      intro hh
      have := hzf s 0 hh
      omega
    obtain ⟨c, vc, km, vm, K, hfl, hcle, hfg, hcv, hkmT, hkmle, hKf, hKge, hKin, hs1,
      hT1⟩ := insert_size_char hs hnz1 hE hse hM h1
    by_cases hs0 : s = 0
    · have hc0 : c = 0 := by omega
      have hg0 : l1.size_tree.get 0 = some z := by
        rw [hT1 0]
        by_cases hvc : vc ≠ z
        · rw [if_pos ⟨hvc, hs0.symm⟩]
        · rw [if_neg (fun hh => hvc hh.1), if_neg (by rintro ⟨_, hh⟩; omega),
            if_neg (fun hh => by have := (hKf 0 hh).1; omega)]
          push_neg at hvc
          rw [← hc0, hcv, hvc]
      have hfl2 : lte l1.size_tree (s - 1) = some (0, z) := by
        rw [hs0]
        exact lte_self hs1 hg0
      refine insert_noop hs1 hse hM ?_ hfl2 ?_ ?_ h2
      · rw [hs0, hg0]
        intro hh
        have := Option.some.inj hh
        omega
      · intro q v hq hq0 hqe
        right
        rw [hT1 q] at hq
        rw [if_neg (by rintro ⟨_, hh⟩; omega)] at hq
        by_cases hfire : (e ≥ km ∧ vm ≠ z) ∧ q = e + 1
        · rw [if_pos hfire] at hq
          refine ⟨hfire.2, ?_⟩
          rw [← Option.some.inj hq]
          exact hfire.1.2
        · rw [if_neg hfire] at hq
          by_cases hkK : q ∈ K
          · rw [if_pos hkK] at hq
            exact Option.noConfusion hq
          · rw [if_neg hkK] at hq
            have hqc : c < q := by omega
            by_cases hqe' : q ≤ e
            · exact absurd (hKin q v hq hqc (by omega) (Or.inl hqe')) hkK
            · refine ⟨by omega, ?_⟩
              intro hvz
              exact hkK (hKin q v hq hqc hqe (Or.inr hvz.symm))
      · intro hh
        exact absurd rfl hh
    · have hlow : ∀ k, k ≤ s - 1 → l1.size_tree.get k = l.size_tree.get k := by
        intro k hk
        rw [hT1 k,
          if_neg (by rintro ⟨_, hh⟩; omega),
          if_neg (by rintro ⟨_, hh⟩; omega),
          if_neg (fun hh => hKge k hh hk)]
      have hfl2 : lte l1.size_tree (s - 1) = some (c, vc) := by
        rw [lte_congr hs1 hs (fun k hk => hlow k hk)]
        exact hfl
      refine insert_noop hs1 hse hM ?_ hfl2 ?_ ?_ h2
      · rw [hT1 s]
        by_cases hvc : vc ≠ z
        · rw [if_pos ⟨hvc, rfl⟩]
          intro hh
          have := Option.some.inj hh
          omega
        · rw [if_neg (fun hh => hvc hh.1), if_neg (by rintro ⟨_, hh⟩; omega)]
          by_cases hkK : s ∈ K
          · rw [if_pos hkK]
            simp
          · rw [if_neg hkK]
            intro hh
            have := hzf s 0 hh
            omega
      · intro q v hq hqc hqe
        rw [hT1 q] at hq
        by_cases hA : vc ≠ z ∧ q = s
        · rw [if_pos hA] at hq
          exact Or.inl ⟨hA.2, (Option.some.inj hq).symm, hA.1⟩
        · rw [if_neg hA] at hq
          by_cases hB : (e ≥ km ∧ vm ≠ z) ∧ q = e + 1
          · rw [if_pos hB] at hq
            refine Or.inr ⟨hB.2, ?_⟩
            rw [← Option.some.inj hq]
            exact hB.1.2
          · rw [if_neg hB] at hq
            by_cases hkK : q ∈ K
            · rw [if_pos hkK] at hq
              exact Option.noConfusion hq
            · rw [if_neg hkK] at hq
              by_cases hqe' : q ≤ e
              · exact absurd (hKin q v hq hqc (by omega) (Or.inl hqe')) hkK
              · refine Or.inr ⟨by omega, ?_⟩
                intro hvz
                exact hkK (hKin q v hq hqc hqe (Or.inr hvz.symm))
      · intro hvcz
        rw [hT1 s, if_pos ⟨hvcz, rfl⟩]

/-- With a floor below `start` available and `start ≤ stop`, the run
enumeration succeeds, returns at least one run, starts at the floor key
and ends at the maximal index. -/
theorem rangesWithin_total {t : BTreeMap} {a b c vc : Nat}
    (hs : BTreeMap.Sorted t) (hab : a ≤ b) (hfl : lte t a = some (c, vc)) :
    ∃ rs, rangesWithin t a b = some rs ∧ rs ≠ [] ∧
      (∃ r0 rest, rs = r0 :: rest ∧ r0.start = c) ∧
      ((rs.getLast?).map RangeR.stop = some LAST_RANGE_END) := by
  have hcb : c ≤ b := le_trans (lte_mem hfl).2 hab
  have hcv : t.get c = some vc := lte_get hs hfl
  have hcR : (c, vc) ∈ t.rangeII c b := by
    apply @BTreeMap.get_mem _ c vc
    rw [BTreeMap.get_rangeII hs, if_pos ⟨le_rfl, hcb⟩]
    exact hcv
  have hminR : ∀ p ∈ t.rangeII c b, c ≤ p.1 := by
    intro p hp
    have h2 := List.of_mem_filter hp
    simp at h2
    exact h2.1
  obtain ⟨rest, hR⟩ := BTreeMap.sorted_eq_cons (BTreeMap.Sorted.filter hs _) hcR hminR
  refine ⟨rangesGo c vc rest, ?_, rangesGo_ne_nil c vc rest, ?_,
    rangesGo_getLast_stop rest c vc⟩
  · unfold rangesWithin
    rw [hfl]
    dsimp only
    have hR2 : t.rangeII c b = (c, vc) :: rest := hR
    rw [if_neg (by omega), hR2]
  · cases rest with
    | nil => exact ⟨⟨c, LAST_RANGE_END, vc⟩, [], rfl, rfl⟩
    | cons a r2 =>
      obtain ⟨n1, z1⟩ := a
      exact ⟨⟨c, n1 - 1, vc⟩, rangesGo n1 z1 r2, rfl, rfl⟩

/-- The placeholder branch decided pointwise: it collapses exactly when
the run right before `start` has the requested size; otherwise all
placeholders are rewritten and offsets are propagated. -/
theorem insert_placeholder_cases {l : OffsetList} {s e z g : Nat}
    (hne : ¬ l.size_tree = []) (hg : l.size_tree.get s = some 0)
    (hs0 : s ≠ 0) (hprev : l.size_tree.get (s - 1) = some g) :
    OffsetList.insert l s e z =
      if g = z then
        some { size_tree := [(0, z)], offset_tree := [(0, 0)],
               pixel_tree := l.pixel_tree }
      else
        OffsetList.update_offset_tree
          { l with size_tree :=
              l.size_tree.map (fun p => if p.2 = 0 then (p.1, z) else p) } s := by
  rw [insert_placeholder_eq z hne hg, if_neg hs0, hprev]

/-- The state after `insert(0, 0, 10)` on a fresh list. -/
def stA : OffsetList := ⟨[(0, 10)], [(0, 0)], [(0, 0)]⟩

/-- The state after `insert(0, 0, 10); insert(3, 7, 20)` on a fresh
list. -/
def stB : OffsetList :=
  ⟨[(0, 10), (3, 20), (8, 10)], [(0, 0), (3, 30), (8, 130)],
    [(0, 0), (30, 3), (130, 8)]⟩

theorem stA_step : OffsetList.insert OffsetList.new 0 0 10 = some stA := by decide

theorem stB_step : OffsetList.insert stA 3 7 20 = some stB := by decide

theorem stB_reachable : ReachableIns stB :=
  ReachableIns.step
    (ReachableIns.step ReachableIns.init (le_refl 0) (by decide) (by omega) stA_step)
    (by omega) (by decide) (by omega) stB_step

theorem stA_reachableAny : ReachableAny stA :=
  ReachableAny.step 0 0 10 ReachableAny.init stA_step

theorem stB_adjS : AdjKeys stB.size_tree 0 3 := by
  refine ⟨by omega, by decide, by decide, ?_⟩
  intro k hk
  by_cases h0 : k = 0
  · exact Or.inl (by omega)
  by_cases h3 : k = 3
  · exact Or.inr (by omega)
  by_cases h8 : k = 8
  · exact Or.inr (by omega)
  exfalso
  simp [stB, BTreeMap.get, h0, h3, h8] at hk

theorem stB_adjO : AdjKeys stB.offset_tree 0 3 := by
  refine ⟨by omega, by decide, by decide, ?_⟩
  intro k hk
  by_cases h0 : k = 0
  · exact Or.inl (by omega)
  by_cases h3 : k = 3
  · exact Or.inr (by omega)
  by_cases h8 : k = 8
  · exact Or.inr (by omega)
  exfalso
  simp [stB, BTreeMap.get, h0, h3, h8] at hk

/-- C1: after any sequence of completed `insert` calls with ordered
in-range bounds and positive sizes, no two adjacent keys of the size
tree carry equal sizes. -/
theorem C1_adjacent_sizes_differ {l : OffsetList} (hr : ReachableIns l)
    {k1 v1 k2 v2 : Nat} (hadj : AdjKeys l.size_tree k1 k2)
    (h1 : l.size_tree.get k1 = some v1) (h2 : l.size_tree.get k2 = some v2) :
    v1 ≠ v2 := by
  rcases reachable_invNE hr with hnew | hI
  · rw [hnew] at h1
    simp [OffsetList.new, BTreeMap.get] at h1
  · exact hI.adj k1 v1 k2 v2 hadj h1 h2

/-- C1 counterexample: `insert(0,0,10); insert(5,2,7)` (degenerate
`start > end`) leaves keys 0 and 3 adjacent, both of size 10. -/
theorem C1_counterexample :
    (Option.bind (OffsetList.insert OffsetList.new 0 0 10)
      (fun l => OffsetList.insert l 5 2 7)).map OffsetList.size_tree =
      some [(0, 10), (3, 10), (5, 7)] ∧
    BTreeMap.get [(0, 10), (3, 10), (5, 7)] 0 =
      BTreeMap.get [(0, 10), (3, 10), (5, 7)] 3 ∧
    BTreeMap.get [(0, 10), (3, 10), (5, 7)] 0 = some 10 ∧
    (∀ k < 3, 0 < k → BTreeMap.get [(0, 10), (3, 10), (5, 7)] k = none) := by
  decide

theorem C1_adjacent_sizes_differ_witness :
    ReachableIns stB ∧ AdjKeys stB.size_tree 0 3 ∧
    stB.size_tree.get 0 = some 10 ∧ stB.size_tree.get 3 = some 20 ∧
    (10 : Nat) ≠ 20 :=
  ⟨stB_reachable, stB_adjS, by decide, by decide,
    C1_adjacent_sizes_differ stB_reachable stB_adjS (by decide) (by decide)⟩

/-- C2: after any sequence of completed in-range `insert` calls, at
every adjacent pair of offset-tree keys the offset recurrence holds and
offsets are monotone. -/
theorem C2_offset_recurrence {l : OffsetList} (hr : ReachableIns l)
    {k1 w1 k2 w2 v1 : Nat} (hadj : AdjKeys l.offset_tree k1 k2)
    (h1 : l.offset_tree.get k1 = some w1) (h2 : l.offset_tree.get k2 = some w2)
    (hs1 : l.size_tree.get k1 = some v1) :
    w2 = w1 + (k2 - k1) * v1 ∧ w1 ≤ w2 := by
  rcases reachable_invNE hr with hnew | hI
  · rw [hnew] at h1
    simp [OffsetList.new, BTreeMap.get] at h1
  · obtain ⟨hlt, hi1, hi2, hbet⟩ := hadj
    have hadjS : AdjKeys l.size_tree k1 k2 := by
      refine ⟨hlt, by simp [hs1], hI.osub k2 hi2, ?_⟩
      intro q hq
      by_cases hq0 : q = 0
      · exact Or.inl (by omega)
      · exact hbet q (hI.ocov q hq0 hq)
    have hrec := hI.orec k1 v1 k2 hadjS hs1
    have hv : voff l k1 = w1 := by
      unfold voff
      rw [h1]
      rfl
    rw [hv, h2] at hrec
    have heq := Option.some.inj hrec
    exact ⟨heq, by omega⟩

/-- C2 counterexample: `insert(0,0,10); insert(3,7,20); remove_index(3)`
leaves adjacent offset keys 0 and 8 with `offset(8) = 130`, not
`0 + 8 * 10`. -/
theorem C2_counterexample :
    (Option.bind (Option.bind (OffsetList.insert OffsetList.new 0 0 10)
        (fun l => OffsetList.insert l 3 7 20))
      (fun l => OffsetList.remove_index l 3)).map
        (fun l => (l.size_tree, l.offset_tree)) =
      some ([(0, 10), (8, 10)], [(0, 0), (8, 130)]) ∧
    130 ≠ 0 + (8 - 0) * 10 := by decide

theorem C2_offset_recurrence_witness :
    ReachableIns stB ∧ AdjKeys stB.offset_tree 0 3 ∧
    stB.offset_tree.get 0 = some 0 ∧ stB.offset_tree.get 3 = some 30 ∧
    stB.size_tree.get 0 = some 10 ∧
    (30 = 0 + (3 - 0) * 10 ∧ 0 ≤ 30) :=
  ⟨stB_reachable, stB_adjO, by decide, by decide, by decide,
    C2_offset_recurrence stB_reachable stB_adjO (by decide) (by decide) (by decide)⟩

/-- C3: after any sequence of completed in-range `insert` calls, the
pixel tree inverts every offset-tree entry. -/
theorem C3_pixel_inverse {l : OffsetList} (hr : ReachableIns l)
    {k w : Nat} (h : l.offset_tree.get k = some w) :
    l.pixel_tree.get w = some k := by
  rcases reachable_invNE hr with hnew | hI
  · rw [hnew] at h
    simp [OffsetList.new, BTreeMap.get] at h
  · exact hI.opix k w h

/-- C3 counterexample: `insert(0,0,10); insert(3,7,20); insert(3,7,5)`
leaves a stale pixel entry `130 → 8`: the pixel tree has four entries
while the offset tree has three, so the two are not in bijection. -/
theorem C3_counterexample :
    (Option.bind (Option.bind (OffsetList.insert OffsetList.new 0 0 10)
        (fun l => OffsetList.insert l 3 7 20))
      (fun l => OffsetList.insert l 3 7 5)).map
        (fun l => (l.offset_tree, l.pixel_tree)) =
      some ([(0, 0), (3, 30), (8, 55)], [(0, 0), (30, 3), (55, 8), (130, 8)]) ∧
    ([(0, 0), (3, 30), (8, 55)] : BTreeMap).length ≠
      ([(0, 0), (30, 3), (55, 8), (130, 8)] : BTreeMap).length := by decide

theorem C3_pixel_inverse_witness :
    ReachableIns stB ∧ stB.offset_tree.get 3 = some 30 ∧
    stB.pixel_tree.get 30 = some 3 :=
  ⟨stB_reachable, by decide, C3_pixel_inverse stB_reachable (by decide)⟩

/-- C4: when `insert` meets a size-0 placeholder at `start`, the branch
is decided solely by the run at `start - 1`: equal size collapses the
structure to `{0 → size}` with offsets reset (pixels kept), otherwise
every stored 0 across the index is rewritten to `size` and offsets are
propagated from `start`. -/
theorem C4_placeholder_branch {l : OffsetList} {s e z g : Nat}
    (hne : ¬ l.size_tree = []) (hg : l.size_tree.get s = some 0)
    (hs0 : s ≠ 0) (hprev : l.size_tree.get (s - 1) = some g) :
    OffsetList.insert l s e z =
      if g = z then
        some { size_tree := [(0, z)], offset_tree := [(0, 0)],
               pixel_tree := l.pixel_tree }
      else
        OffsetList.update_offset_tree
          { l with size_tree :=
              l.size_tree.map (fun p => if p.2 = 0 then (p.1, z) else p) } s :=
  insert_placeholder_cases hne hg hs0 hprev

/-- C4 counterexample: from `{0→5, 1→0, 10→7, 11→0}` (reachable via
`insert_spots([0,10],5); insert(10,10,7)`), the call `insert(11,11,7)`
collapses to `{0→7}` although the placeholder at key 1 has a preceding
run of size 5 ≠ 7: only the placeholder at `start` is consulted. -/
theorem C4_counterexample :
    (Option.bind (OffsetList.insert_spots OffsetList.new [0, 10] 5)
      (fun l => OffsetList.insert l 10 10 7)).map OffsetList.size_tree =
      some [(0, 5), (1, 0), (10, 7), (11, 0)] ∧
    (Option.bind (Option.bind (OffsetList.insert_spots OffsetList.new [0, 10] 5)
        (fun l => OffsetList.insert l 10 10 7))
      (fun l => OffsetList.insert l 11 11 7)).map OffsetList.size_tree =
      some [(0, 7)] ∧
    BTreeMap.get [(0, 5), (1, 0), (10, 7), (11, 0)] 0 = some 5 ∧ (5 : Nat) ≠ 7 := by
  decide

/-- A two-run state with a placeholder at key 1. -/
def stC4 : OffsetList := ⟨[(0, 5), (1, 0)], [], []⟩

theorem C4_placeholder_branch_witness :
    (¬ stC4.size_tree = []) ∧
    stC4.size_tree.get 1 = some 0 ∧
    (1 : Nat) ≠ 0 ∧
    stC4.size_tree.get (1 - 1) = some 5 ∧
    OffsetList.insert stC4 1 1 7 =
      (if (5 : Nat) = 7 then
        some { size_tree := [(0, 7)], offset_tree := [(0, 0)],
               pixel_tree := stC4.pixel_tree }
      else
        OffsetList.update_offset_tree
          { stC4 with size_tree :=
              stC4.size_tree.map (fun p => if p.2 = 0 then (p.1, 7) else p) } 1) :=
  ⟨by decide, by decide, by decide, by decide,
    C4_placeholder_branch (by decide) (by decide) (by decide) (by decide)⟩

/-- C5: on a sorted, placeholder-free prior state, inserting the same
positive-size, ordered, in-range interval twice leaves exactly the same
size-tree content as inserting it once. -/
theorem C5_insert_idempotent {l l1 l2 : OffsetList} {s e z : Nat}
    (hs : BTreeMap.Sorted l.size_tree)
    (hzf : ∀ k v, l.size_tree.get k = some v → 0 < v)
    (hz : 0 < z) (hse : s ≤ e) (hM : e < LAST_RANGE_END)
    (h1 : OffsetList.insert l s e z = some l1)
    (h2 : OffsetList.insert l1 s e z = some l2) :
    l2.size_tree = l1.size_tree :=
  insert_twice_size_eq hs hzf hz hse hM h1 h2

/-- C5 counterexample: from the reachable state after
`insert_spots([0],5); insert(3,10,9)`, the call `insert(1,4,7)` applied
twice yields `{0→5,1→7,5→9,11→7}`, while applying it once yields
`{0→5,1→7,3→9,11→7}`. -/
theorem C5_counterexample :
    (Option.bind (Option.bind (OffsetList.insert_spots OffsetList.new [0] 5)
        (fun l => OffsetList.insert l 3 10 9))
      (fun l => OffsetList.insert l 1 4 7)).map OffsetList.size_tree =
      some [(0, 5), (1, 7), (3, 9), (11, 7)] ∧
    (Option.bind (Option.bind (Option.bind (OffsetList.insert_spots OffsetList.new [0] 5)
        (fun l => OffsetList.insert l 3 10 9))
      (fun l => OffsetList.insert l 1 4 7))
      (fun l => OffsetList.insert l 1 4 7)).map OffsetList.size_tree =
      some [(0, 5), (1, 7), (5, 9), (11, 7)] ∧
    ([(0, 5), (1, 7), (3, 9), (11, 7)] : BTreeMap) ≠
      [(0, 5), (1, 7), (5, 9), (11, 7)] := by decide

theorem C5_insert_idempotent_witness :
    BTreeMap.Sorted stA.size_tree ∧ (0 : Nat) < 20 ∧ (3 : Nat) ≤ 7 ∧
    7 < LAST_RANGE_END ∧
    OffsetList.insert stA 3 7 20 = some stB ∧
    OffsetList.insert stB 3 7 20 = some stB ∧
    stB.size_tree = stB.size_tree :=
  ⟨by decide, by decide, by decide, by decide, by decide, by decide,
    @C5_insert_idempotent stA stB stB 3 7 20 (by decide)
      (fun k v hk => by
        by_cases h0 : k = 0
        · simp [stA, BTreeMap.get, h0] at hk
          omega
        · simp [stA, BTreeMap.get, h0] at hk)
      (by decide) (by decide) (by decide) (by decide) (by decide)⟩

/-- C6: after a first completed mutation, any completed sequence of
`insert` or `insert_spots` calls (with arbitrary arguments) leaves key 0
in the size tree, so the size-tree floor lookup used by the point
queries and the run enumeration always finds a key.  (The range query's
leading floor lookup is on the pixel tree and is not covered: it can
fail on such histories.) -/
theorem C6_zero_key_floor_total {l : OffsetList} (hr : ReachableAny l)
    (hne : l ≠ OffsetList.new) :
    (l.size_tree.get 0).isSome ∧ ∀ q, lte l.size_tree q ≠ none := by
  rcases reachableAny_zero hr with h | ⟨_, h0⟩
  · exact absurd h hne
  · refine ⟨h0, fun q => ?_⟩
    obtain ⟨v0, hv0⟩ := Option.isSome_iff_exists.1 h0
    exact lte_isSome_of_mem (BTreeMap.get_mem hv0) (Nat.zero_le q)

/-- C6 counterexample: `insert(0,0,10); remove_index(0)` empties the
size tree, after which the floor lookup fails for every query; and even
in an insert-only history, `insert(5,9,3)` from the empty state leaves
the offset and pixel trees empty, so the range query's pixel-tree floor
lookup fails although key 0 is present in the size tree. -/
theorem C6_counterexample :
    (Option.bind (OffsetList.insert OffsetList.new 0 0 10)
      (fun l => OffsetList.remove_index l 0)).map
        (fun l => (l.size_tree, lte l.size_tree 5)) = some ([], none) ∧
    (OffsetList.insert OffsetList.new 5 9 3).map OffsetList.size_tree =
      some [(0, 3)] ∧
    (OffsetList.insert OffsetList.new 5 9 3).map OffsetList.pixel_tree = some [] ∧
    (OffsetList.insert OffsetList.new 5 9 3).map (fun l => lte l.pixel_tree 0) =
      some none ∧
    Option.bind (OffsetList.insert OffsetList.new 5 9 3)
      (fun l => l.range 0 0 0 LAST_RANGE_END) = none := by decide

theorem C6_zero_key_floor_total_witness :
    ReachableAny stA ∧ stA ≠ OffsetList.new ∧
    (stA.size_tree.get 0).isSome ∧ lte stA.size_tree 5 ≠ none :=
  ⟨stA_reachableAny, by decide,
    (C6_zero_key_floor_total stA_reachableAny (by decide)).1,
    (C6_zero_key_floor_total stA_reachableAny (by decide)).2 5⟩

/-- C8: evaluation of the divergence. From the reachable state after
`insert_spots([0,10],5); insert(5,6,7); insert(5,6,1)`, the query
`range(19, 20, 0, u32::MAX)` reaches a placeholder run whose offset
lies below `start_offset` and divides by its size 0: the call aborts
(`none`) instead of emitting one placeholder item and returning. -/
theorem C8_range_division_by_zero :
    (Option.bind (Option.bind (OffsetList.insert_spots OffsetList.new [0, 10] 5)
        (fun l => OffsetList.insert l 5 6 7))
      (fun l => OffsetList.insert l 5 6 1)).map
        (fun l => (l.size_tree, l.offset_tree)) =
      some ([(0, 5), (1, 0), (5, 1), (7, 0), (10, 5), (11, 0)],
        [(0, 0), (1, 5), (5, 5), (7, 7), (10, 7), (11, 12)]) ∧
    (Option.bind (Option.bind (Option.bind (OffsetList.insert_spots OffsetList.new [0, 10] 5)
        (fun l => OffsetList.insert l 5 6 7))
      (fun l => OffsetList.insert l 5 6 1))
      (fun l => l.range 19 20 0 LAST_RANGE_END)) = none := by decide

/-- C9: evaluation of the divergence. After
`insert_spots([0],5); insert(2,4,7)` the size tree is
`{0→5, 1→0, 2→7, 5→0}`: the placeholder at key 5 has no entry at key 4,
so `insert(5,5,9)` takes the placeholder branch and aborts at the
`expect` on the missing preceding group. -/
theorem C9_placeholder_missing_prev :
    (Option.bind (OffsetList.insert_spots OffsetList.new [0] 5)
      (fun l => OffsetList.insert l 2 4 7)).map
        (fun l => (l.size_tree, l.size_tree.get 5, l.size_tree.get 4)) =
      some ([(0, 5), (1, 0), (2, 7), (5, 0)], some 0, none) ∧
    (Option.bind (Option.bind (OffsetList.insert_spots OffsetList.new [0] 5)
        (fun l => OffsetList.insert l 2 4 7))
      (fun l => OffsetList.insert l 5 5 9)) = none := by decide

/-- C10: with any key at or below `start` and `start ≤ end`, the run
enumeration succeeds with at least one run, starting at the floor key
and ending at the maximal index. -/
theorem C10_ranges_within_total {t : BTreeMap} {a b c vc : Nat}
    (hs : BTreeMap.Sorted t) (hab : a ≤ b) (hfl : lte t a = some (c, vc)) :
    ∃ rs, rangesWithin t a b = some rs ∧ rs ≠ [] ∧
      (∃ r0 rest, rs = r0 :: rest ∧ r0.start = c) ∧
      ((rs.getLast?).map RangeR.stop = some LAST_RANGE_END) :=
  rangesWithin_total hs hab hfl

/-- C10 counterexample: on the non-empty map `{5 → 3}` with
`start = 2 ≤ end = 3` the enumeration still fails: no key lies at or
below `start`, so non-emptiness of the map does not suffice. -/
theorem C10_counterexample :
    rangesWithin [(5, 3)] 2 3 = none ∧ ([(5, 3)] : BTreeMap) ≠ [] ∧ (2 : Nat) ≤ 3 := by
  decide

theorem C10_ranges_within_total_witness :
    BTreeMap.Sorted [(0, 5), (3, 7)] ∧ (2 : Nat) ≤ 4 ∧
    lte [(0, 5), (3, 7)] 2 = some (0, 5) ∧
    (∃ rs, rangesWithin [(0, 5), (3, 7)] 2 4 = some rs ∧ rs ≠ [] ∧
      (∃ r0 rest, rs = r0 :: rest ∧ r0.start = 0) ∧
      ((rs.getLast?).map RangeR.stop = some LAST_RANGE_END)) :=
  ⟨by decide, by decide, by decide,
    @C10_ranges_within_total [(0, 5), (3, 7)] 2 4 0 5 (by decide) (by decide) (by decide)⟩
